import Mathlib

/-!
Verification of the resource-management core of `legate/core/runtime.py`
(field allocation and consensus recycling, external-buffer attachments,
partition construction and caching, the parallel-launch-space planner and
the projection/transpose functor-id derivation).

The Python source is shallowly embedded: pure computations become Lean
functions, the mutable manager objects become explicit state records, and
fallible code (Python `assert` failures, raised exceptions, division by
zero, non-terminating loops) is modelled by `Option`/explicit result
inductives, with `none`/failure constructors marking the crash.  Calls into
the external Legion substrate (the collective consensus-match primitive,
index-space/field-space/region creation) are modelled by oracle parameters,
so the theorems hold for every behaviour of the substrate.
-/

set_option maxRecDepth 2000

namespace LegateCore

/-! ### FieldManager and the consensus match (`FieldMatch`)

A freed field is identified across shards by the stable integer pair
`(region.handle.tree_id, field_id)`; regions themselves are identified by
their tree id. -/

/-- Stable identity of one field slot: `(tree_id, field_id)`, exactly the
pair the source packs into the consensus-match buffers. -/
abbrev FieldPair := Nat × Nat

/-- State of `FieldManager` (the slots of the Python class that the
allocation/recycling protocol reads or writes): the sanitized `free_fields`
deque, the unsanitized `freed_fields` list, the deque of outstanding
matches (each match holds the field list it was constructed from), the
match counter and frequency, and the list of top-level regions (by tree
id). -/
structure FieldManager where
  free_fields : List FieldPair
  freed_fields : List FieldPair
  «matches» : List (List FieldPair)
  match_counter : Nat
  match_frequency : Nat
  top_regions : List Nat
  deriving Repr, DecidableEq

/-- Constant `Runtime.max_field_reuse_size` (source: 256). -/
def maxFieldReuseSize : Nat := 256

/-- Constant `Runtime.max_field_reuse_frequency` (source: 32). -/
def maxFieldReuseFrequency : Nat := 32

/-- Constructor `FieldManager.__init__`: empty lists, zero counter, and the
match frequency derived from the byte footprint `volume * itemsize`
(`reduce` over an empty shape raises `TypeError`, hence `none`). -/
def mkFieldManager (shape : List Nat) (itemsize : Nat) : Option FieldManager :=
  match shape with
  | [] => none
  | s :: rest =>
    let volume := rest.foldl (fun x y => x * y) s
    let size := volume * itemsize
    let match_frequency :=
      if maxFieldReuseSize < size then
        let scale := (size + maxFieldReuseSize - 1) / maxFieldReuseSize
        (maxFieldReuseFrequency + scale - 1) / scale
      else maxFieldReuseFrequency
    some { free_fields := [], freed_fields := [], «matches» := [],
           match_counter := 0, match_frequency := match_frequency,
           top_regions := [] }

/-- Method `FieldManager.free_field(region, field_id, ordered)`: ordered
frees append to the sanitized queue, unordered frees to the unsanitized
list; nothing else changes. -/
def FieldManager.free_field (fm : FieldManager) (region field_id : Nat)
    (ordered : Bool) : FieldManager :=
  if ordered then
    { fm with free_fields := fm.free_fields ++ [(region, field_id)] }
  else
    { fm with freed_fields := fm.freed_fields ++ [(region, field_id)] }

/-- The inner scan of `FieldMatch.update_free_fields`: look for the first
index of the returned buffer holding the identity pair `p` (the source
compares `output[2*idx]` to the tree id and `output[2*idx+1]` to the field
id). -/
def scanFor (p : FieldPair) : List FieldPair → Option Nat
  | [] => none
  | q :: rest => if q = p then some 0 else (scanFor p rest).map (fun i => i + 1)

/-- The per-candidate loop of `FieldMatch.update_free_fields`: each local
candidate found in the buffer is placed into the result slot of its buffer
index (`assert ordered_fields[idx] is None` failing is `none`); candidates
not found are appended to the unordered additions. -/
def matchScan (output : List FieldPair) :
    List FieldPair → List (Option FieldPair) → List FieldPair →
    Option (List (Option FieldPair) × List FieldPair)
  | [], slots, unord => some (slots, unord)
  | p :: rest, slots, unord =>
    match scanFor p output with
    | some idx =>
      if (slots.getD idx none).isSome then none
      else matchScan output rest (slots.set idx (some p)) unord
    | none => matchScan output rest slots (unord ++ [p])

/-- Method `FieldMatch.update_free_fields`, as a pure function from the
local candidate list and the decoded agreed buffer to the pair
(ordered additions to the sanitized queue, unordered additions to the
unsanitized list).  Crashes of the source (`assert num_fields <=
len(self.fields)`, a reused result slot, or unpacking a `None` slot left
unfilled) are `none`. -/
def updateFreeFields (fields output : List FieldPair) :
    Option (List FieldPair × List FieldPair) :=
  if fields = [] then some ([], [])
  else if fields.length < output.length then none
  else if output = [] then some ([], fields)
  else
    match matchScan output fields (output.map fun _ => none) [] with
    | none => none
    | some (slots, unord) =>
      if slots.all (fun s => s.isSome) then some (slots.reduceOption, unord)
      else none

/-- The head of `FieldManager.allocate_field`: increment the match counter
and, exactly when it reaches the match frequency, take ownership of the
unsanitized list (replacing it with an empty one), dispatch a `FieldMatch`
built from it, enqueue the match, and reset the counter.  The second
component is the list of matches dispatched by this step (the dispatch
happens unconditionally, even for an empty candidate list). -/
def matchPrelude (fm : FieldManager) : FieldManager × List (List FieldPair) :=
  if fm.match_counter + 1 = fm.match_frequency then
    ({ fm with
        freed_fields := [],
        «matches» := fm.«matches» ++ [fm.freed_fields],
        match_counter := 0 }, [fm.freed_fields])
  else
    ({ fm with match_counter := fm.match_counter + 1 }, [])

/-- The drain loop of `allocate_field`: pop outstanding matches
oldest-first, resolve each via `updateFreeFields` against the agreed buffer
supplied by the consensus oracle, feed ordered additions into the sanitized
queue and unordered ones into the unsanitized list, and stop as soon as the
sanitized queue is non-empty (popping its head). -/
def drainMatches (oracle : List FieldPair → List FieldPair) :
    List (List FieldPair) → List FieldPair → List FieldPair →
    Option (Option FieldPair × List FieldPair × List FieldPair × List (List FieldPair))
  | [], free, freed => some (none, free, freed, [])
  | m :: rest, free, freed =>
    match updateFreeFields m (oracle m) with
    | none => none
    | some (ord, unord) =>
      match free ++ ord with
      | [] => drainMatches oracle rest [] (freed ++ unord)
      | p :: tail => some (some p, tail, freed ++ unord, rest)

/-- Oracle for the region-scan / new-region tail of `allocate_field`
(lines 266-307 of the source), which only talks to the external Legion
substrate: given the current top-region list it returns the allocated
`(region, field_id)` pair, the leftover already-laid-out fields to append
to the sanitized free queue, and the new top-region list. -/
abbrev RegionOracle := List Nat → FieldPair × List FieldPair × List Nat

/-- Method `FieldManager.allocate_field`: the match prelude, then pop the
sanitized queue if non-empty, otherwise drain outstanding matches
oldest-first, otherwise fall through to the region-scan/new-region path
(the substrate oracle).  The third component is the list of matches
dispatched during the call. -/
def allocateField (oracle : List FieldPair → List FieldPair)
    (ralloc : RegionOracle) (fm : FieldManager) :
    Option (FieldPair × FieldManager × List (List FieldPair)) :=
  let st := matchPrelude fm
  match st.1.free_fields with
  | p :: rest => some (p, { st.1 with free_fields := rest }, st.2)
  | [] =>
    match drainMatches oracle st.1.«matches» [] st.1.freed_fields with
    | none => none
    | some (some p, free, freed, ms) =>
      some (p, { st.1 with
                  free_fields := free,
                  freed_fields := freed,
                  «matches» := ms }, st.2)
    | some (none, free, freed, ms) =>
      let reg := ralloc st.1.top_regions
      some (reg.1, { st.1 with
                      free_fields := free ++ reg.2.1,
                      freed_fields := freed,
                      «matches» := ms,
                      top_regions := reg.2.2 }, st.2)

/-- One boundary operation against a `FieldManager`: an `allocate_field`
call or an unordered `free_field` call. -/
inductive FMOp where
  | alloc : FMOp
  | free : FieldPair → FMOp
  deriving Repr, DecidableEq

/-- Run a sequence of operations against a `FieldManager`, returning the
final state and the total number of consensus matches dispatched. -/
def runFM (oracle : List FieldPair → List FieldPair) (ralloc : RegionOracle) :
    List FMOp → FieldManager → Option (FieldManager × Nat)
  | [], fm => some (fm, 0)
  | FMOp.alloc :: rest, fm =>
    match allocateField oracle ralloc fm with
    | none => none
    | some (_, fm', disp) =>
      match runFM oracle ralloc rest fm' with
      | none => none
      | some (fm'', d) => some (fm'', disp.length + d)
  | FMOp.free p :: rest, fm =>
    runFM oracle ralloc rest (fm.free_field p.1 p.2 false)

/-- Number of `allocate_field` calls in an operation sequence. -/
def numAllocs (ops : List FMOp) : Nat :=
  ops.countP fun op => match op with | FMOp.alloc => true | FMOp.free _ => false

/-! ### AttachmentManager -/

/-- Dedup key of an attachment: `(base address, nbytes)`. -/
abbrev AttachKey := Nat × Nat

/-- Class `Attachment`: an externally-owned buffer bound to one
`(region, field)` pair, reference-counted. -/
structure Attachment where
  ptr : Nat
  extent : Nat
  count : Nat
  region : Nat
  field : Nat
  deriving Repr, DecidableEq

/-- Field `Attachment.end`: `ptr + extent - 1` (inclusive, exact integer
arithmetic). -/
def Attachment.endAddr (a : Attachment) : Int := (a.ptr : Int) + a.extent - 1

/-- Method `Attachment.overlaps`. -/
def Attachment.overlaps (a other : Attachment) : Bool :=
  !(a.endAddr < (other.ptr : Int) || other.endAddr < (a.ptr : Int))

/-- Method `Attachment.equals`: pointer and extent, the dedup key. -/
def Attachment.equals (a other : Attachment) : Bool :=
  a.ptr == other.ptr && a.extent == other.extent

/-- Method `Attachment.add_reference`. -/
def Attachment.add_reference (a : Attachment) : Attachment :=
  { a with count := a.count + 1 }

/-- Method `Attachment.remove_reference`, translated exactly as written:
after `assert self.count > 0` (failure is `none`) the source *increments*
the count (`self.count += 1`). -/
def Attachment.remove_reference (a : Attachment) : Option Attachment :=
  if a.count = 0 then none else some { a with count := a.count + 1 }

/-- Property `Attachment.collectible`. -/
def Attachment.collectible (a : Attachment) : Bool := a.count == 0

/-- The `AttachmentManager._attachments` dict, as an association list in
insertion order (Python dicts preserve insertion order, and
`attach_array` iterates over `.values()`). -/
abbrev AttachTable := List (AttachKey × Attachment)

/-- Dict lookup `self._attachments[key]`. -/
def lookupAttachment (t : AttachTable) (key : AttachKey) : Option Attachment :=
  (t.find? fun e => e.1 == key).map fun e => e.2

/-- The aliasing scan of `attach_array`: first registered attachment whose
address range overlaps the new one. -/
def firstOverlap (att : Attachment) : AttachTable → Option Attachment
  | [] => none
  | e :: rest => if e.2.overlaps att then some e.2 else firstOverlap att rest

/-- Outcome of `AttachmentManager.attach_array`: a returned view bound to a
`(region, field)` pair together with the updated table, the
illegal-aliasing `RuntimeError` (carrying the table, which the source
leaves untouched because the raise precedes the dict insertion), or an
`assert` failure. -/
inductive AttachResult where
  | ok : Nat × Nat → AttachTable → AttachResult
  | aliasError : AttachTable → AttachResult
  | assertFail : AttachResult
  deriving Repr, DecidableEq

/-- Method `AttachmentManager.attach_array`.  `fresh` stands for the
`(region, field)` pair of the `RegionField` that `runtime.allocate_field`
returns on the not-yet-attached path; on the dedup path the view is bound
to the existing attachment's region and field and the shared count is
incremented. -/
def attachArray (t : AttachTable) (key : AttachKey) (fresh : Nat × Nat)
    (_share : Bool) : AttachResult :=
  match lookupAttachment t key with
  | none =>
    let att : Attachment :=
      { ptr := key.1, extent := key.2, count := 1,
        region := fresh.1, field := fresh.2 }
    match firstOverlap att t with
    | some other =>
      if other.equals att then AttachResult.assertFail
      else AttachResult.aliasError t
    | none => AttachResult.ok (att.region, att.field) (t ++ [(key, att)])
  | some att =>
    let att' := att.add_reference
    AttachResult.ok (att.region, att.field)
      (t.map fun e => if e.1 == key then (e.1, att') else e)

/-- Outcome of `AttachmentManager.remove_attachment`: the updated table,
the unknown-buffer `RuntimeError`, or an `assert` failure. -/
inductive RemoveResult where
  | ok : AttachTable → RemoveResult
  | unknownError : RemoveResult
  | assertFail : RemoveResult
  deriving Repr, DecidableEq

/-- Method `AttachmentManager.remove_attachment`: look the key up (raising
on an unknown buffer), run `remove_reference`, and delete the entry only
if the attachment has become collectible. -/
def removeAttachment (t : AttachTable) (key : AttachKey) : RemoveResult :=
  match lookupAttachment t key with
  | none => RemoveResult.unknownError
  | some att =>
    match att.remove_reference with
    | none => RemoveResult.assertFail
    | some att' =>
      if att'.collectible then
        RemoveResult.ok (t.filter fun e => !(e.1 == key))
      else
        RemoveResult.ok (t.map fun e => if e.1 == key then (e.1, att') else e)

/-! ### Partition construction and caching (`_find_or_create_partition`)

The Legion `Transform`/`Rect`/`Point` helpers live in the external
substrate; they are modelled by integer matrices acting on integer
vectors, with structural equality, following the spec's description of the
congruence test (same tiling transform, same extent rectangle, same
color-space bounds). -/

/-- An integer matrix (row-major), modelling `Transform.trans`. -/
abbrev Mat := List (List Int)

/-- Matrix-vector application, modelling `Transform.apply`. -/
def matApply (m : Mat) (v : List Int) : List Int :=
  m.map fun row => (List.zipWith (fun x y => x * y) row v).sum

/-- Number of columns of a matrix. -/
def matCols (b : Mat) : Nat := (b.headD []).length

/-- Matrix product, modelling `Transform.compose` (the composite maps the
color space through the tiling scale and then through the supplied
region-space transform, per the source comment). -/
def matMul (a b : Mat) : Mat :=
  a.map fun row =>
    (List.range (matCols b)).map fun j =>
      (List.zipWith (fun x bi => x * bi.getD j 0) row b).sum

/-- The tiling transform: `Transform(d, d)` with the diagonal set to the
tile extents. -/
def diagMat (tile : List Nat) : Mat :=
  (List.range tile.length).map fun i =>
    (List.range tile.length).map fun j =>
      if i = j then (tile.getD i 0 : Int) else 0

/-- The congruence key `_find_or_create_partition` compares: the composed
tiling transform, the inclusive extent rectangle, and the color-space
bounds. -/
structure PartKey where
  transform : Mat
  extentLo : List Int
  extentHi : List Int
  colorLo : List Int
  colorHi : List Int
  deriving Repr, DecidableEq

/-- Derivation of the congruence key from the call arguments, following
lines 342-370 of the source: `lo = 0`, `hi = tile_shape - 1`, both shifted
by `offset` when present and projected through `transform` when present;
the tiling transform composed with `transform` when present; color bounds
`[0, color_shape - 1]`. -/
def computePartKey (color_shape tile_shape : List Nat)
    (offset : Option (List Int)) (transform : Option Mat) : PartKey :=
  let lo0 : List Int := tile_shape.map fun _ => 0
  let hi0 : List Int := tile_shape.map fun t => (t : Int) - 1
  let lo1 := match offset with
    | none => lo0
    | some off => List.zipWith (fun x y => x + y) lo0 off
  let hi1 := match offset with
    | none => hi0
    | some off => List.zipWith (fun x y => x + y) hi0 off
  let tileT := diagMat tile_shape
  match transform with
  | none =>
    { transform := tileT, extentLo := lo1, extentHi := hi1,
      colorLo := color_shape.map fun _ => 0,
      colorHi := color_shape.map fun c => (c : Int) - 1 }
  | some tr =>
    { transform := matMul tr tileT, extentLo := matApply tr lo1,
      extentHi := matApply tr hi1,
      colorLo := color_shape.map fun _ => 0,
      colorHi := color_shape.map fun c => (c : Int) - 1 }

/-- A child partition of the region's index space: the functor kind flag
(`isinstance(part.functor, PartitionByRestriction)`), the congruence key,
and the `color_shape`/`tile_shape`/`tile_offset` annotation (set on
construction, or on first congruent lookup when absent — the source's
`hasattr` check). -/
structure PartChild where
  isRestriction : Bool
  key : PartKey
  annot : Option (List Nat × List Nat × Option (List Int))
  deriving Repr, DecidableEq

/-- The congruence search of `_find_or_create_partition` over
`region.index_space.children`, in order: skip non-restriction functors,
compare the key, annotate the first congruent child if not yet annotated,
and return it together with the updated child list. -/
def searchCongruent (k : PartKey) (cs ts : List Nat)
    (off : Option (List Int)) :
    List PartChild → Option (PartChild × List PartChild)
  | [] => none
  | c :: rest =>
    if c.isRestriction = true ∧ c.key = k then
      let c' := if c.annot.isSome then c
                else { c with annot := some (cs, ts, off) }
      some (c', c' :: rest)
    else
      match searchCongruent k cs ts off rest with
      | none => none
      | some r => some (r.1, c :: r.2)

/-- Function `_find_or_create_partition(runtime, region, color_shape,
tile_shape, offset, transform, complete)`: check the offset length
assertion, search the existing children for a congruent partition, and
otherwise construct (and append) a new annotated child.  The `complete`
flag only selects the substrate partition kind and takes no part in the
congruence test, exactly as in the source. -/
def findOrCreatePartition (children : List PartChild)
    (color_shape tile_shape : List Nat) (offset : Option (List Int))
    (transform : Option Mat) (_complete : Bool) :
    Option (PartChild × List PartChild) :=
  if (match offset with
      | none => true
      | some off => off.length == tile_shape.length) = true then
    let k := computePartKey color_shape tile_shape offset transform
    match searchCongruent k color_shape tile_shape offset children with
    | some r => some r
    | none =>
      let c : PartChild :=
        { isRestriction := true, key := k,
          annot := some (color_shape, tile_shape, offset) }
      some (c, children ++ [c])
  else none

/-! ### The launch-space planner and tile shapes -/

/-- Planner configuration: the fields of `Runtime` the planner reads
(`num_pieces`, `min_shard_volume`, and the precomputed `piece_factors`). -/
structure Config where
  num_pieces : Nat
  min_shard_volume : Nat
  piece_factors : List Nat
  deriving Repr, DecidableEq

/-- One `while pieces % p == 0` loop of `Runtime.__init__` with explicit
fuel (each iteration divides the running value by `p >= 2`, so `n` units
of fuel always suffice; the zero-fuel case is unreachable when the fuel
starts at `n`). -/
def extractFactorsAux (p : Nat) : Nat → Nat → List Nat × Nat
  | 0, n => ([], n)
  | fuel + 1, n =>
    if 2 ≤ p ∧ 1 ≤ n ∧ n % p = 0 then
      let r := extractFactorsAux p fuel (n / p)
      (p :: r.1, r.2)
    else ([], n)

/-- One `while pieces % p == 0` loop of `Runtime.__init__`: extract all
factors `p` from `n`, returning the factor list and the residual. -/
def extractFactors (p : Nat) (n : Nat) : List Nat × Nat :=
  extractFactorsAux p n n

/-- The `Runtime.__init__` factorization of `num_pieces` over the fixed
prime basis 2, 3, 5, 7, 11 (raising `ValueError` — `none` — on a larger
residual prime, and looping forever — also `none` — on zero pieces),
yielding the planner configuration with `piece_factors` in reversed
(largest-first) order. -/
def runtimeInit (num_pieces min_shard_volume : Nat) : Option Config :=
  if num_pieces = 0 then none
  else
    let e2 := extractFactors 2 num_pieces
    let e3 := extractFactors 3 e2.2
    let e5 := extractFactors 5 e3.2
    let e7 := extractFactors 7 e5.2
    let e11 := extractFactors 11 e7.2
    if 1 < e11.2 then none
    else some { num_pieces := num_pieces, min_shard_volume := min_shard_volume,
                piece_factors := (e2.1 ++ e3.1 ++ e5.1 ++ e7.1 ++ e11.1).reverse }

/-- The `Runtime.launch_spaces` cache (shape to cached planner result), as
an association list. -/
abbrev LaunchCache := List (List Nat × Option (List Nat))

/-- Cache lookup `shape in self.launch_spaces`. -/
def cacheLookup (c : LaunchCache) (s : List Nat) : Option (Option (List Nat)) :=
  (c.find? fun e => e.1 == s).map fun e => e.2

/-- Cache store `self.launch_spaces[shape] = result`. -/
def cacheInsert (c : LaunchCache) (s : List Nat) (v : Option (List Nat)) :
    LaunchCache :=
  if (c.find? fun e => e.1 == s).isSome then
    c.map fun e => if e.1 == s then (s, v) else e
  else c ++ [(s, v)]

/-- Floor of the square root of the rational `a / b`, computed exactly
over naturals (`sqrt(a/b) = sqrt(a*b)/b`). -/
def ratFloorSqrt (a b : Nat) : Nat := Nat.sqrt (a * b) / b

/-- Denominator of the `1e-12` guard the source adds before rounding. -/
def epsDen : Nat := 1000000000000

/-- Value `int(math.floor(n + 1e-12))` for `n = sqrt(a/b)`, modelling the
source's float computation as exact real arithmetic: the floor is bumped
to `k + 1` exactly when `sqrt(a/b)` lies within `1e-12` below it, i.e.
when `(k + 1 - 1e-12)^2 <= a/b`, cleared of denominators over ℕ. -/
def floorSqrtAdj (a b : Nat) : Nat :=
  if ((ratFloorSqrt a b + 1) * epsDen - 1) ^ 2 * b ≤ a * epsDen ^ 2 then
    ratFloorSqrt a b + 1
  else ratFloorSqrt a b

/-- Value `int(math.ceil(n - 1e-12))` for `n = sqrt(a/b)`, under the same
exact-real reading: the ceiling drops to `k` exactly when `sqrt(a/b)` lies
within `1e-12` above `k`, i.e. when `a/b <= (k + 1e-12)^2`, cleared of
denominators over ℕ. -/
def ceilSqrtAdj (a b : Nat) : Nat :=
  if a * epsDen ^ 2 ≤ (ratFloorSqrt a b * epsDen + 1) ^ 2 * b then
    ratFloorSqrt a b
  else ratFloorSqrt a b + 1

/-- Loop `while max_pieces % n1 != 0: n1 -= 1` (starting from `max(n1, 1)`
it always terminates at a divisor at least 1; the unreachable zero case of
the recursion returns 0). -/
def findDivDown (p : Nat) : Nat → Nat
  | 0 => 0
  | n + 1 => if p % (n + 1) = 0 then n + 1 else findDivDown p n

/-- Loop `while max_pieces % n2 != 0: n2 += 1`, with explicit fuel: a start
of 0 raises `ZeroDivisionError` and a start beyond every divisor loops
forever, both modelled by `none`. -/
def findDivUp (p : Nat) : Nat → Nat → Option Nat
  | 0, _ => none
  | fuel + 1, n =>
    if n = 0 then none
    else if p % n = 0 then some n
    else findDivUp p fuel (n + 1)

/-- The square-root factor-pair picker of the planner's two-dimensional
branch: choose between the floor and ceiling square-root divisor
candidates the factor pair of `mp` whose longer resulting tile side is
shorter (`n = sqrt(mp * nx / ny)` with the source's `1e-12` guards,
modelled over exact rationals). -/
def launch2DTileSide (mp nx ny n : Nat) : Nat :=
  max (nx / n) (ny / (mp / n))

/-- The choice between the floor and ceiling square-root divisor
candidates (`px = n1 if side1 <= side2 else n2; py = max_pieces // px`):
pick whichever factor pair yields the smaller maximum tile side. -/
def launch2DPickAux (mp nx ny n1 n2 : Nat) : Nat × Nat :=
  if launch2DTileSide mp nx ny n1 ≤ launch2DTileSide mp nx ny n2 then
    (n1, mp / n1)
  else (n2, mp / n2)

/-- The square-root factor-pair picker of the planner's two-dimensional
branch: `n = sqrt(mp * nx / ny)` (with the source's `1e-12` guards,
modelled over exact rationals), `n1` the nearest divisor at or below
`max(floor, 1)`, `n2` the nearest divisor at or above the ceiling. -/
def launch2DPick (mp nx ny : Nat) : Option (Nat × Nat) :=
  match findDivUp mp (mp + 1)
      (ceilSqrtAdj (mp * nx) ny) with
  | none => none
  | some n2 =>
    some (launch2DPickAux mp nx ny
      (findDivDown mp
        (max (floorSqrtAdj (mp * nx) ny) 1))
      n2)

/-- The two-dimensional branch of the planner (lines 1368-1411): return
the pruned shape itself when its volume is below the piece target,
otherwise normalize so the first axis is the shorter one, pick the factor
pair via `launch2DPick`, and clamp each axis to its extent (swapping
back). -/
def launch2D (mp volume : Nat) (ts : List Nat) : Option (List Nat) :=
  if volume < mp then some ts
  else
    match ts with
    | [sx, sy] =>
      match launch2DPick mp (if sy < sx then sy else sx)
          (if sy < sx then sx else sy) with
      | none => none
      | some pxy =>
        some (if sy < sx then [min pxy.2 sx, min pxy.1 sy]
              else [min pxy.1 sx, min pxy.2 sy])
    | _ => none

/-- Index update `temp_result[i] *= factor`. -/
def bumpAt (res : List Nat) (i : Nat) (f : Nat) : List Nat :=
  res.set i (res.getD i 0 * f)

/-- Value `max(l)` of a non-empty list of naturals. -/
def listMax (l : List Nat) : Nat := l.foldr max 0

/-- Expression `l.index(max(l))`: first index of the maximum. -/
def argmaxIdx (l : List Nat) : Nat := l.indexOf (listMax l)

/-- The round-robin prime-factor loop of the planner's higher-dimensional
branch (lines 1418-1452): apply each prime factor (stopping once the
running product would exceed the piece bound) to the dimension with the
largest remaining per-piece extent, preferring not to shrink the last
dimension below 32 units per piece unless no other dimension can absorb
the factor. -/
def applyFactors (mp : Nat) (ts : List Nat) :
    List Nat → List Nat → Nat → List Nat
  | [], res, _ => res
  | f :: rest, res, fprod =>
    if mp < f * fprod then res
    else
      let remaining := List.zipWith (fun s r => (s + r - 1) / r) ts res
      let big := argmaxIdx remaining
      let res' :=
        if big + 1 < ts.length then bumpAt res big f
        else if remaining.length = 1 ∨ 32 ≤ remaining.getD big 0 / f then
          bumpAt res big f
        else
          let big2 := remaining.indexOf (listMax remaining.dropLast)
          if 0 < remaining.getD big2 0 / f then bumpAt res big2 f
          else bumpAt res (ts.length - 1) f
      applyFactors mp ts rest res' (f * fprod)

/-- The full higher-dimensional branch: all-ones start, then the factor
loop. -/
def launchND (mp : Nat) (pf : List Nat) (ts : List Nat) : List Nat :=
  applyFactors mp ts pf (ts.map fun _ => 1) 1

/-- Projection of the pruned per-dimension counts back onto the original
dimensions (`temp_dims` bookkeeping of the source): pruned extent-1
dimensions get a count of 1, the others take the next pruned-result entry
in order. -/
def projectBack : List Nat → List Nat → List Nat
  | [], _ => []
  | e :: rest, tr =>
    if e = 1 then 1 :: projectBack rest tr
    else
      match tr with
      | [] => []
      | t :: tr' => t :: projectBack rest tr'

/-- Method `Runtime.compute_parallel_launch_space_by_shape`.  The result is
`none` for a crash (a failed `assert` or a division by zero), and
otherwise the pair of the planner answer (`none` meaning "no parallel
decomposition") and the updated `launch_spaces` cache. -/
def computeParallelLaunchSpaceByShape (cfg : Config) (cache : LaunchCache)
    (shape : List Nat) : Option (Option (List Nat) × LaunchCache) :=
  if cfg.num_pieces = 0 then none
  else if cfg.num_pieces = 1 then some (none, cache)
  else if shape.all (fun e => e ≤ 1) then some (none, cache)
  else
    match cacheLookup cache shape with
    | some v => some (v, cache)
    | none =>
      if shape.contains 0 then none
      else
        let temp_shape := shape.filter fun e => e ≠ 1
        let volume := temp_shape.prod
        if cfg.min_shard_volume = 0 then none
        else
          let max_pieces :=
            (volume + cfg.min_shard_volume - 1) / cfg.min_shard_volume
          if max_pieces = 0 then none
          else if max_pieces = 1 then some (none, cacheInsert cache shape none)
          else
            let mp := cfg.num_pieces
            let dims := temp_shape.length
            if dims = 0 then some (some (shape.map fun _ => 1), cache)
            else if dims = 1 then
              let r := projectBack shape [min (temp_shape.headD 0) mp]
              some (some r, cacheInsert cache shape (some r))
            else if dims = 2 then
              match launch2D mp volume temp_shape with
              | none => none
              | some tr =>
                let r := projectBack shape tr
                some (some r, cacheInsert cache shape (some r))
            else
              let r := projectBack shape (launchND mp cfg.piece_factors temp_shape)
              some (some r, cacheInsert cache shape (some r))

/-- Method `Runtime.compute_tile_shape`: per-axis ceiling division
`(extent + pieces - 1) // pieces`, after the length assertion; a zero
piece count raises `ZeroDivisionError` (`none`). -/
def computeTileShape (shape launch_space : List Nat) : Option (List Nat) :=
  if shape.length = launch_space.length ∧ launch_space.all (fun p => 0 < p) then
    some (List.zipWith (fun x y => (x + y - 1) / y) shape launch_space)
  else none

/-! ### Projection and transpose functor identifiers -/

/-- The mask-packing loop of `Runtime.get_projection`:
`proj_id |= int(val) << dim` over the enumerated mask. -/
def maskBits (mask : List Bool) : Nat :=
  mask.enum.foldl (fun acc iv => acc ||| ((if iv.2 then 1 else 0) <<< iv.1)) 0

/-- The `proj_id` computed by `Runtime.get_projection`:
`(mask_bits << 8) | (src_dim << 4) | tgt_dim`. -/
def getProjectionProjId (src_dim tgt_dim : Nat) (mask : List Bool) : Nat :=
  (maskBits mask <<< 8) ||| (src_dim <<< 4) ||| tgt_dim

/-- Arithmetic reading of the mask bits: the sum of `2^i` over the set
positions, with `i` the offset of the enumeration. -/
def maskSum : Nat → List Bool → Nat
  | _, [] => 0
  | i, b :: rest => (if b then 2 ^ i else 0) + maskSum (i + 1) rest

/-- The Lehmer code of `Runtime.get_transpose`:
`code[idx] = (seq[idx+1:] < val).sum()`. -/
def lehmerCode : List Nat → List Nat
  | [] => []
  | v :: rest => rest.countP (fun x => decide (x < v)) :: lehmerCode rest

/-- The factoradic rank of `Runtime.get_transpose`: the sum of
`code[idx] * (dim - idx - 1)!`; at recursion depth `idx` the remaining
suffix has length `dim - idx - 1`, so the multiplier is
`rest.length.factorial`. -/
def factoradic : List Nat → Nat
  | [] => 0
  | v :: rest =>
    rest.countP (fun x => decide (x < v)) * rest.length.factorial + factoradic rest

/-- The `proj_id` computed by `Runtime.get_transpose`.  Modelled from the
spec: the base constant `LEGATE_CORE_FIRST_TRANSPOSE_FUNCTOR` lives in the
repository's core C library, outside the Python source; the spec says only
that transpose ids encode the factoradic rank of the permutation plus the
dimension on top of that base, so the base is a parameter here. -/
def getTransposeProjId (firstTransposeFunctor : Nat) (seq : List Nat) : Nat :=
  firstTransposeFunctor ||| (factoradic seq <<< 4) ||| seq.length

/-! ### Lemmas about the match prelude and `allocate_field` -/

theorem matchPrelude_frequency (fm : FieldManager) :
    (matchPrelude fm).1.match_frequency = fm.match_frequency := by
  unfold matchPrelude; split <;> rfl

theorem matchPrelude_counter (fm : FieldManager) :
    (matchPrelude fm).1.match_counter =
      if fm.match_counter + 1 = fm.match_frequency then 0
      else fm.match_counter + 1 := by
  unfold matchPrelude; split <;> simp_all

theorem matchPrelude_disp (fm : FieldManager) :
    (matchPrelude fm).2 =
      if fm.match_counter + 1 = fm.match_frequency then [fm.freed_fields]
      else [] := by
  unfold matchPrelude; split <;> simp_all

theorem allocateField_state (oracle : List FieldPair → List FieldPair)
    (ralloc : RegionOracle) (fm : FieldManager) (p : FieldPair)
    (fm' : FieldManager) (disp : List (List FieldPair))
    (h : allocateField oracle ralloc fm = some (p, fm', disp)) :
    fm'.match_counter = (matchPrelude fm).1.match_counter ∧
    fm'.match_frequency = fm.match_frequency ∧
    disp = (matchPrelude fm).2 := by
  simp only [allocateField] at h
  cases hf : (matchPrelude fm).1.free_fields with
  | cons q rest =>
    simp only [hf, Option.some.injEq, Prod.mk.injEq] at h
    obtain ⟨-, h2, h3⟩ := h
    subst h2; subst h3
    exact ⟨rfl, matchPrelude_frequency fm, rfl⟩
  | nil =>
    simp only [hf] at h
    cases hd : drainMatches oracle (matchPrelude fm).1.«matches» []
        (matchPrelude fm).1.freed_fields with
    | none => simp only [hd] at h; cases h
    | some r =>
      obtain ⟨ro, free, freed, ms⟩ := r
      cases ro with
      | some q =>
        simp only [hd, Option.some.injEq, Prod.mk.injEq] at h
        obtain ⟨-, h2, h3⟩ := h
        subst h2; subst h3
        exact ⟨rfl, matchPrelude_frequency fm, rfl⟩
      | none =>
        simp only [hd, Option.some.injEq, Prod.mk.injEq] at h
        obtain ⟨-, h2, h3⟩ := h
        subst h2; subst h3
        exact ⟨rfl, matchPrelude_frequency fm, rfl⟩

theorem free_field_counter (fm : FieldManager) (region field_id : Nat)
    (ordered : Bool) :
    (fm.free_field region field_id ordered).match_counter = fm.match_counter ∧
    (fm.free_field region field_id ordered).match_frequency =
      fm.match_frequency := by
  unfold FieldManager.free_field; split <;> exact ⟨rfl, rfl⟩

theorem numAllocs_alloc_cons (rest : List FMOp) :
    numAllocs (FMOp.alloc :: rest) = numAllocs rest + 1 := by
  simp [numAllocs, List.countP_cons]

theorem numAllocs_free_cons (p : FieldPair) (rest : List FMOp) :
    numAllocs (FMOp.free p :: rest) = numAllocs rest := by
  simp [numAllocs, List.countP_cons]

theorem runFM_spec (oracle : List FieldPair → List FieldPair)
    (ralloc : RegionOracle) :
    ∀ (ops : List FMOp) (fm fm' : FieldManager) (d : Nat),
      0 < fm.match_frequency → fm.match_counter < fm.match_frequency →
      runFM oracle ralloc ops fm = some (fm', d) →
      d = (fm.match_counter + numAllocs ops) / fm.match_frequency ∧
      fm'.match_counter =
        (fm.match_counter + numAllocs ops) % fm.match_frequency ∧
      fm'.match_frequency = fm.match_frequency := by
  intro ops
  induction ops with
  | nil =>
    intro fm fm' d hpos hlt h
    simp only [runFM, Option.some.injEq, Prod.mk.injEq] at h
    obtain ⟨h1, h2⟩ := h
    subst h1; subst h2
    refine ⟨?_, ?_, rfl⟩
    · simp [numAllocs, Nat.div_eq_of_lt hlt]
    · simp [numAllocs, Nat.mod_eq_of_lt hlt]
  | cons op rest ih =>
    intro fm fm' d hpos hlt h
    cases op with
    | free p =>
      simp only [runFM] at h
      have hc := free_field_counter fm p.1 p.2 false
      have := ih _ fm' d (by rw [hc.2]; exact hpos) (by rw [hc.1, hc.2]; exact hlt) h
      rw [hc.1, hc.2] at this
      rw [numAllocs_free_cons]
      exact this
    | alloc =>
      simp only [runFM] at h
      cases ha : allocateField oracle ralloc fm with
      | none => simp only [ha] at h; cases h
      | some r =>
        obtain ⟨q, fm1, disp⟩ := r
        cases hr : runFM oracle ralloc rest fm1 with
        | none => simp only [ha, hr] at h; cases h
        | some r2 =>
          obtain ⟨fm2, d2⟩ := r2
          simp only [ha, hr, Option.some.injEq, Prod.mk.injEq] at h
          obtain ⟨h1, h2⟩ := h
          subst h1; subst h2
          obtain ⟨hc1, hc2, hc3⟩ := allocateField_state oracle ralloc fm q fm1 disp ha
          rw [matchPrelude_counter] at hc1
          rw [matchPrelude_disp] at hc3
          set c := fm.match_counter with hc
          set f := fm.match_frequency with hf
          by_cases hcf : c + 1 = f
          · rw [if_pos hcf] at hc1
            have h1pos : (0 : Nat) < f := hpos
            have hrec := ih fm1 fm2 d2 (by rw [hc2]; exact hpos)
              (by rw [hc1, hc2]; exact hpos) hr
            rw [hc1, hc2] at hrec
            obtain ⟨hd2, hm2, hf2⟩ := hrec
            rw [hc3, if_pos hcf]
            rw [numAllocs_alloc_cons]
            refine ⟨?_, ?_, by rw [hf2]⟩
            · rw [hd2]
              simp only [List.length_singleton, Nat.zero_add]
              have he : c + (numAllocs rest + 1) = numAllocs rest + f := by omega
              rw [he, Nat.add_div_right _ hpos]
              omega
            · rw [hm2]
              simp only [Nat.zero_add]
              have he : c + (numAllocs rest + 1) = numAllocs rest + f := by omega
              rw [he, Nat.add_mod_right]
          · rw [if_neg hcf] at hc1
            have hlt1 : c + 1 < f := by omega
            have hrec := ih fm1 fm2 d2 (by rw [hc2]; exact hpos)
              (by rw [hc1, hc2]; exact hlt1) hr
            rw [hc1, hc2] at hrec
            obtain ⟨hd2, hm2, hf2⟩ := hrec
            rw [hc3, if_neg hcf]
            rw [numAllocs_alloc_cons]
            refine ⟨?_, ?_, by rw [hf2]⟩
            · rw [hd2]; simp only [List.length_nil, Nat.zero_add]
              congr 1; omega
            · rw [hm2]; congr 1; omega

/-- Claim C1: every `allocate_field` call increments the match counter;
exactly when the counter reaches the match frequency, a `FieldMatch` over
the current unsanitized freed list is dispatched (the list replaced by an
empty one), enqueued on the outstanding-match queue, and the counter is
reset to zero — unconditionally, even when the local freed list is empty
(the first conjunct has no hypothesis on `freed_fields`); the dispatch
list and counter of a completed `allocate_field` call are exactly those of
this prelude; and for a manager with match frequency 3, any completed
operation sequence containing exactly 3 `allocate_field` calls and any
number of unordered `free_field` calls dispatches exactly one consensus
match. -/
theorem allocate_field_dispatches_matches :
    (∀ fm : FieldManager,
      (fm.match_counter + 1 = fm.match_frequency →
        matchPrelude fm =
          ({ fm with
              freed_fields := [],
              «matches» := fm.«matches» ++ [fm.freed_fields],
              match_counter := 0 }, [fm.freed_fields])) ∧
      (fm.match_counter + 1 ≠ fm.match_frequency →
        matchPrelude fm =
          ({ fm with match_counter := fm.match_counter + 1 }, []))) ∧
    (∀ (oracle : List FieldPair → List FieldPair) (ralloc : RegionOracle)
       (fm : FieldManager) (p : FieldPair) (fm' : FieldManager)
       (disp : List (List FieldPair)),
      allocateField oracle ralloc fm = some (p, fm', disp) →
      disp = (matchPrelude fm).2 ∧
      fm'.match_counter = (matchPrelude fm).1.match_counter) ∧
    (∀ (oracle : List FieldPair → List FieldPair) (ralloc : RegionOracle)
       (ops : List FMOp) (fm fm' : FieldManager) (d : Nat),
      fm.match_counter = 0 → fm.match_frequency = 3 → numAllocs ops = 3 →
      runFM oracle ralloc ops fm = some (fm', d) → d = 1) := by
  refine ⟨?_, ?_, ?_⟩
  · intro fm
    constructor
    · intro h; unfold matchPrelude; rw [if_pos h]
    · intro h; unfold matchPrelude; rw [if_neg h]
  · intro oracle ralloc fm p fm' disp h
    obtain ⟨h1, -, h3⟩ := allocateField_state oracle ralloc fm p fm' disp h
    exact ⟨h3, h1⟩
  · intro oracle ralloc ops fm fm' d hc hf hn h
    obtain ⟨hd, -, -⟩ := runFM_spec oracle ralloc ops fm fm' d
      (by rw [hf]; exact Nat.zero_lt_succ 2) (by rw [hc, hf]; exact Nat.zero_lt_succ 2) h
    rw [hd, hc, hf, hn]

/-- Witness for C1: a concrete scenario with three `allocate_field` calls
interleaved with two unordered `free_field` calls on a frequency-3
manager, run against the trivial consensus oracle, dispatches exactly one
match. -/
theorem allocate_field_dispatches_matches_witness :
    ∃ fmd : FieldManager × Nat,
      runFM (fun _ => []) (fun regs => ((0, 0), [], regs))
        [FMOp.alloc, FMOp.free (1, 1), FMOp.alloc, FMOp.free (1, 2), FMOp.alloc]
        ⟨[], [], [], 0, 3, []⟩ = some fmd ∧ fmd.2 = 1 := by
  have h : runFM (fun _ => []) (fun regs => ((0, 0), [], regs))
      [FMOp.alloc, FMOp.free (1, 1), FMOp.alloc, FMOp.free (1, 2), FMOp.alloc]
      ⟨[], [], [], 0, 3, []⟩ =
      some (⟨[], [(1, 1), (1, 2)], [], 0, 3, []⟩, 1) := by decide
  refine ⟨(⟨[], [(1, 1), (1, 2)], [], 0, 3, []⟩, 1), h, ?_⟩
  exact allocate_field_dispatches_matches.2.2 (fun _ => [])
    (fun regs => ((0, 0), [], regs))
    [FMOp.alloc, FMOp.free (1, 1), FMOp.alloc, FMOp.free (1, 2), FMOp.alloc]
    ⟨[], [], [], 0, 3, []⟩ _ _ rfl rfl (by decide) h

theorem mkFieldManager_frequency (shape : List Nat) (itemsize : Nat)
    (fm : FieldManager) (h : mkFieldManager shape itemsize = some fm) :
    1 ≤ fm.match_frequency ∧ fm.match_counter = 0 ∧
    fm.free_fields = [] ∧ fm.freed_fields = [] ∧ fm.«matches» = [] := by
  cases shape with
  | nil => cases h
  | cons s rest =>
    simp only [mkFieldManager, Option.some.injEq] at h
    subst h
    refine ⟨?_, rfl, rfl, rfl, rfl⟩
    simp only
    split
    · next hgt =>
      set size := rest.foldl (fun x y => x * y) s * itemsize with hsz
      have hscale : 1 ≤ (size + maxFieldReuseSize - 1) / maxFieldReuseSize := by
        rw [Nat.one_le_div_iff (by norm_num [maxFieldReuseSize])]
        simp only [maxFieldReuseSize] at hgt ⊢
        omega
      rw [Nat.one_le_div_iff (by omega)]
      simp only [maxFieldReuseFrequency]
      omega
    · norm_num [maxFieldReuseFrequency]

/-- Claim C10: for every `FieldManager`, `match_frequency >= 1` holds from
construction onward and `0 <= match_counter < match_frequency` holds after
construction and is preserved by every completed `allocate_field` call
(which resets the counter to zero exactly when the increment makes it
equal to the frequency) and by every `free_field` call (which never
touches the counter or the frequency). -/
theorem match_counter_invariant :
    (∀ (shape : List Nat) (itemsize : Nat) (fm : FieldManager),
      mkFieldManager shape itemsize = some fm →
      1 ≤ fm.match_frequency ∧ fm.match_counter = 0 ∧
      fm.match_counter < fm.match_frequency) ∧
    (∀ (oracle : List FieldPair → List FieldPair) (ralloc : RegionOracle)
       (fm : FieldManager) (p : FieldPair) (fm' : FieldManager)
       (disp : List (List FieldPair)),
      fm.match_counter < fm.match_frequency →
      allocateField oracle ralloc fm = some (p, fm', disp) →
      fm'.match_frequency = fm.match_frequency ∧
      fm'.match_counter =
        (if fm.match_counter + 1 = fm.match_frequency then 0
         else fm.match_counter + 1) ∧
      fm'.match_counter < fm'.match_frequency) ∧
    (∀ (fm : FieldManager) (region field_id : Nat) (ordered : Bool),
      (fm.free_field region field_id ordered).match_counter =
        fm.match_counter ∧
      (fm.free_field region field_id ordered).match_frequency =
        fm.match_frequency) := by
  refine ⟨?_, ?_, free_field_counter⟩
  · intro shape itemsize fm h
    obtain ⟨h1, h2, -⟩ := mkFieldManager_frequency shape itemsize fm h
    exact ⟨h1, h2, by omega⟩
  · intro oracle ralloc fm p fm' disp hlt h
    obtain ⟨h1, h2, -⟩ := allocateField_state oracle ralloc fm p fm' disp h
    rw [matchPrelude_counter] at h1
    refine ⟨h2, h1, ?_⟩
    rw [h1, h2]
    split
    · next heq => omega
    · next hne => omega

/-- Witness for C10: the invariant instantiated on a freshly constructed
manager for shape `(10,)` with 8-byte elements (frequency 32), one
`allocate_field` call against the trivial oracles, and one unordered
`free_field` call. -/
theorem match_counter_invariant_witness :
    (1 ≤ (32 : Nat) ∧ (0 : Nat) = 0 ∧ (0 : Nat) < 32) ∧
    ((⟨[], [], [], 1, 32, []⟩ : FieldManager).match_frequency = 32 ∧
      (⟨[], [], [], 1, 32, []⟩ : FieldManager).match_counter =
        (if (0 : Nat) + 1 = 32 then 0 else 0 + 1) ∧
      (⟨[], [], [], 1, 32, []⟩ : FieldManager).match_counter <
        (⟨[], [], [], 1, 32, []⟩ : FieldManager).match_frequency) ∧
    ((⟨[], [], [], 0, 32, []⟩ : FieldManager).free_field 1 2 false).match_counter =
        (⟨[], [], [], 0, 32, []⟩ : FieldManager).match_counter := by
  refine ⟨?_, ?_, ?_⟩
  · exact match_counter_invariant.1 [10] 8 ⟨[], [], [], 0, 32, []⟩ (by decide)
  · exact match_counter_invariant.2.1 (fun _ => []) (fun regs => ((0, 0), [], regs))
      ⟨[], [], [], 0, 32, []⟩ (0, 0) ⟨[], [], [], 1, 32, []⟩ [] (by decide) (by decide)
  · exact (match_counter_invariant.2.2 ⟨[], [], [], 0, 32, []⟩ 1 2 false).1

/-! ### Correctness of the consensus-match resolution (`update_free_fields`) -/

/-- Canonical contents of the `ordered_fields` slot array after processing
the candidates in `processed`: slot `i` holds the `i`-th buffer entry when
that entry has already been seen, else `None`. -/
def slotsOf (output processed : List FieldPair) : List (Option FieldPair) :=
  output.map fun q => if processed.contains q then some q else none

theorem contains_eq_true_iff (l : List FieldPair) (a : FieldPair) :
    l.contains a = true ↔ a ∈ l := by simp

theorem contains_eq_false_iff (l : List FieldPair) (a : FieldPair) :
    l.contains a = false ↔ a ∉ l := by
  constructor
  · intro h hm
    rw [(contains_eq_true_iff l a).mpr hm] at h
    cases h
  · intro h
    cases hcc : l.contains a with
    | false => rfl
    | true => exact absurd ((contains_eq_true_iff l a).mp hcc) h

theorem contains_append_singleton (l : List FieldPair) (p q : FieldPair)
    (h : q ≠ p) : (l ++ [p]).contains q = l.contains q := by
  by_cases hm : q ∈ l
  · rw [(contains_eq_true_iff l q).mpr hm,
      (contains_eq_true_iff _ q).mpr (List.mem_append_left _ hm)]
  · have hnm : q ∉ l ++ [p] := by
      simp only [List.mem_append, List.mem_singleton]
      intro hc
      rcases hc with hc | hc
      · exact hm hc
      · exact h hc
    rw [(contains_eq_false_iff l q).mpr hm, (contains_eq_false_iff _ q).mpr hnm]

theorem scanFor_mem (p : FieldPair) :
    ∀ (l : List FieldPair) (i : Nat), scanFor p l = some i → p ∈ l := by
  intro l
  induction l with
  | nil => intro i h; cases h
  | cons q rest ih =>
    intro i h
    simp only [scanFor] at h
    split at h
    · next hq => subst hq; exact List.mem_cons_self q rest
    · cases hs : scanFor p rest with
      | none => rw [hs] at h; cases h
      | some j => exact List.mem_cons_of_mem q (ih j hs)

theorem scanFor_isSome_of_mem (p : FieldPair) :
    ∀ l : List FieldPair, p ∈ l → (scanFor p l).isSome = true := by
  intro l
  induction l with
  | nil => intro h; cases h
  | cons q rest ih =>
    intro h
    simp only [scanFor]
    split
    · rfl
    · next hq =>
      have hpr : p ∈ rest := by
        rcases List.mem_cons.mp h with h1 | h1
        · exact absurd h1.symm hq
        · exact h1
      cases hs : scanFor p rest with
      | none => rw [hs] at ih; exact absurd (ih hpr) (by simp)
      | some j => rfl

theorem scanFor_none (p : FieldPair) (l : List FieldPair) :
    scanFor p l = none ↔ p ∉ l := by
  constructor
  · intro h hm
    have := scanFor_isSome_of_mem p l hm
    rw [h] at this
    cases this
  · intro h
    cases hs : scanFor p l with
    | none => rfl
    | some i => exact absurd (scanFor_mem p l i hs) h

theorem slotsOf_irrel (p : FieldPair) (l processed : List FieldPair)
    (hp : p ∉ l) : slotsOf l (processed ++ [p]) = slotsOf l processed := by
  unfold slotsOf
  apply List.map_congr_left
  intro q hq
  have hqp : q ≠ p := fun h => hp (h ▸ hq)
  rw [contains_append_singleton processed p q hqp]

theorem slotsOf_set (output : List FieldPair) (p : FieldPair) :
    ∀ (i : Nat) (processed : List FieldPair), output.Nodup → p ∉ processed →
    scanFor p output = some i →
    (slotsOf output processed).getD i none = none ∧
    (slotsOf output processed).set i (some p) =
      slotsOf output (processed ++ [p]) := by
  induction output with
  | nil => intro i processed _ _ h; cases h
  | cons q rest ih =>
    intro i processed hnd hp h
    have hndr : rest.Nodup := (List.nodup_cons.mp hnd).2
    have hqr : q ∉ rest := (List.nodup_cons.mp hnd).1
    simp only [scanFor] at h
    split at h
    · next hq =>
      subst hq
      have hi : i = 0 := by cases h; rfl
      subst hi
      have hcontains : processed.contains q = false :=
        (contains_eq_false_iff processed q).mpr hp
      constructor
      · simp only [slotsOf, List.map_cons, List.getD_cons_zero, hcontains,
          Bool.false_eq_true, if_false]
      · simp only [slotsOf, List.map_cons, List.set_cons_zero, hcontains,
          Bool.false_eq_true, if_false]
        have hcontains2 : (processed ++ [q]).contains q = true :=
          (contains_eq_true_iff _ q).mpr
            (List.mem_append_right _ (List.mem_singleton.mpr rfl))
        rw [hcontains2, if_pos rfl]
        have hirr := slotsOf_irrel q rest processed hqr
        unfold slotsOf at hirr
        rw [hirr]
    · next hq =>
      cases hs : scanFor p rest with
      | none => rw [hs] at h; cases h
      | some j =>
        rw [hs, Option.map_some'] at h
        cases h
        obtain ⟨ih1, ih2⟩ := ih j processed hndr hp hs
        have hqc : (processed ++ [p]).contains q = processed.contains q :=
          contains_append_singleton processed p q hq
        constructor
        · simpa only [slotsOf, List.map_cons, List.getD_cons_succ] using ih1
        · simp only [slotsOf, List.map_cons, List.set_cons_succ, hqc]
          unfold slotsOf at ih2
          rw [ih2]

theorem filter_singleton_not_contains (output : List FieldPair) (p : FieldPair)
    (h : p ∉ output) :
    [p].filter (fun x => !output.contains x) = [p] := by
  have hc : output.contains p = false := (contains_eq_false_iff output p).mpr h
  simp only [List.filter_singleton, hc, Bool.not_false]
  rfl

theorem filter_singleton_contains (output : List FieldPair) (p : FieldPair)
    (h : p ∈ output) :
    [p].filter (fun x => !output.contains x) = [] := by
  have hc : output.contains p = true := (contains_eq_true_iff output p).mpr h
  simp only [List.filter_singleton, hc, Bool.not_true]
  rfl

theorem matchScan_run (output : List FieldPair) (hout : output.Nodup) :
    ∀ (rest processed : List FieldPair), (processed ++ rest).Nodup →
    matchScan output rest (slotsOf output processed)
      (processed.filter fun x => !output.contains x) =
    some (slotsOf output (processed ++ rest),
      (processed ++ rest).filter fun x => !output.contains x) := by
  intro rest
  induction rest with
  | nil => intro processed _; simp [matchScan]
  | cons p rest' ih =>
    intro processed hnd
    have hp : p ∉ processed := by
      rw [List.nodup_middle, List.nodup_cons] at hnd
      intro hc
      exact hnd.1 (List.mem_append_left _ hc)
    have hnd' : (processed ++ [p] ++ rest').Nodup := by
      rwa [List.append_assoc, List.singleton_append]
    cases hs : scanFor p output with
    | some i =>
      obtain ⟨h1, h2⟩ := slotsOf_set output p i processed hout hp hs
      simp only [matchScan, hs, h1, Option.isSome_none, Bool.false_eq_true,
        if_false, h2]
      have hpin : p ∈ output := scanFor_mem p output i hs
      have hfilter : (processed ++ [p]).filter (fun x => !output.contains x) =
          processed.filter fun x => !output.contains x := by
        rw [List.filter_append, filter_singleton_contains output p hpin,
          List.append_nil]
      rw [← hfilter]
      have hres := ih (processed ++ [p]) hnd'
      rw [List.append_assoc, List.singleton_append] at hres
      exact hres
    | none =>
      have hpout : p ∉ output := (scanFor_none p output).mp hs
      have hslots : slotsOf output (processed ++ [p]) = slotsOf output processed :=
        slotsOf_irrel p output processed hpout
      have hfilter : (processed ++ [p]).filter (fun x => !output.contains x) =
          (processed.filter fun x => !output.contains x) ++ [p] := by
        rw [List.filter_append, filter_singleton_not_contains output p hpout]
      simp only [matchScan, hs]
      rw [← hslots, ← hfilter]
      have hres := ih (processed ++ [p]) hnd'
      rw [List.append_assoc, List.singleton_append] at hres
      exact hres

theorem reduceOption_map_some (l : List FieldPair) :
    (l.map some).reduceOption = l := by
  induction l with
  | nil => rfl
  | cons x rest ih => rw [List.map_cons, List.reduceOption_cons_of_some, ih]

/-- Claim C2: resolving a consensus match over a non-empty local candidate
list against an agreed buffer that is a duplicate-free sub-collection of
the candidates pushes exactly the buffer, in canonical buffer order, onto
the sanitized free queue and exactly the remaining candidates onto the
unsanitized list; the two lists together are a permutation of the local
candidates (no candidate lost or duplicated); and with an agreed count of
zero every candidate goes onto the unsanitized list. -/
theorem update_free_fields_reconciliation :
    (∀ fields : List FieldPair, fields ≠ [] →
      updateFreeFields fields [] = some ([], fields)) ∧
    (∀ fields output : List FieldPair,
      fields ≠ [] → fields.Nodup → output.Nodup →
      (∀ p ∈ output, p ∈ fields) →
      updateFreeFields fields output =
        some (output, fields.filter fun p => !output.contains p) ∧
      (output ++ fields.filter fun p => !output.contains p).Perm fields) := by
  constructor
  · intro fields hne
    unfold updateFreeFields
    rw [if_neg hne]
    simp
  · intro fields output hne hndf hndo hsub
    have hperm : (output ++ fields.filter fun p => !output.contains p).Perm fields := by
      have h1 : output.Perm (fields.filter fun p => output.contains p) := by
        rw [List.perm_ext_iff_of_nodup hndo (hndf.filter _)]
        intro a
        simp only [List.mem_filter]
        constructor
        · intro ha
          exact ⟨hsub a ha, (contains_eq_true_iff output a).mpr ha⟩
        · intro ha
          exact (contains_eq_true_iff output a).mp ha.2
      have h2 := List.filter_append_perm (fun p => output.contains p) fields
      exact (h1.append_right _).trans h2
    refine ⟨?_, hperm⟩
    have hlen : output.length ≤ fields.length := by
      have h1 : output.length = output.toFinset.card :=
        (List.toFinset_card_of_nodup hndo).symm
      have h2 : output.toFinset ⊆ fields.toFinset := by
        intro a ha
        rw [List.mem_toFinset] at ha ⊢
        exact hsub a ha
      calc output.length = output.toFinset.card := h1
        _ ≤ fields.toFinset.card := Finset.card_le_card h2
        _ ≤ fields.length := fields.toFinset_card_le
    by_cases ho : output = []
    · subst ho
      unfold updateFreeFields
      rw [if_neg hne]
      simp
    · unfold updateFreeFields
      rw [if_neg hne, if_neg (by omega : ¬ fields.length < output.length),
        if_neg ho]
      have hinit : (output.map fun _ => (none : Option FieldPair)) =
          slotsOf output [] := by
        unfold slotsOf
        apply List.map_congr_left
        intro q _
        rw [(contains_eq_false_iff [] q).mpr (List.not_mem_nil q)]
        simp
      have hrun := matchScan_run output hndo fields [] (by simpa using hndf)
      simp only [List.nil_append, List.filter_nil] at hrun
      have hfull : slotsOf output fields = output.map some := by
        unfold slotsOf
        apply List.map_congr_left
        intro q hq
        rw [(contains_eq_true_iff fields q).mpr (hsub q hq)]
        simp
      have hall : (output.map some).all (fun s => s.isSome) = true := by
        rw [List.all_eq_true]
        intro s hsm
        rw [List.mem_map] at hsm
        obtain ⟨a, -, ha⟩ := hsm
        rw [← ha]
        rfl
      rw [hinit]
      simp only [hrun, hfull, hall, reduceOption_map_some]
      exact if_pos trivial

/-- Witness for C2: the reconciliation on the concrete candidate list
`[(1,1), (1,2), (1,3)]` with agreed buffer `[(1,3), (1,1)]` — the
sanitized additions are the buffer in canonical order and `(1,2)` returns
to the unsanitized list. -/
theorem update_free_fields_reconciliation_witness :
    updateFreeFields [(1, 1), (1, 2), (1, 3)] [(1, 3), (1, 1)] =
      some ([(1, 3), (1, 1)], [(1, 2)]) ∧
    updateFreeFields [(1, 1), (1, 2)] [] = some ([], [(1, 1), (1, 2)]) := by
  constructor
  · have h := (update_free_fields_reconciliation.2 [(1, 1), (1, 2), (1, 3)]
      [(1, 3), (1, 1)] (by decide) (by decide) (by decide) (by decide)).1
    simpa using h
  · exact update_free_fields_reconciliation.1 [(1, 1), (1, 2)] (by decide)

/-! ### Attachment dedup and aliasing -/

/-- Claim C3, evaluated at its failing input: attaching the same
`(address, length)` key twice does return views bound to the same
`(region, field)` and does increment the shared count to 2, but because
`remove_reference` *increments* the count (`self.count += 1` in the
source, flagged by the spec as a defect), two `remove_attachment` calls
leave the count at 4, the attachment never becomes collectible, and the
dedup entry is never deleted — contradicting the claimed
drop-to-zero-and-unregister behaviour. -/
theorem remove_attachment_increments_count :
    attachArray [] (1000, 64) (7, 3) true =
      AttachResult.ok (7, 3) [((1000, 64), ⟨1000, 64, 1, 7, 3⟩)] ∧
    attachArray [((1000, 64), ⟨1000, 64, 1, 7, 3⟩)] (1000, 64) (9, 9) true =
      AttachResult.ok (7, 3) [((1000, 64), ⟨1000, 64, 2, 7, 3⟩)] ∧
    removeAttachment [((1000, 64), ⟨1000, 64, 2, 7, 3⟩)] (1000, 64) =
      RemoveResult.ok [((1000, 64), ⟨1000, 64, 3, 7, 3⟩)] ∧
    removeAttachment [((1000, 64), ⟨1000, 64, 3, 7, 3⟩)] (1000, 64) =
      RemoveResult.ok [((1000, 64), ⟨1000, 64, 4, 7, 3⟩)] ∧
    (⟨1000, 64, 4, 7, 3⟩ : Attachment).collectible = false ∧
    lookupAttachment [((1000, 64), ⟨1000, 64, 4, 7, 3⟩)] (1000, 64) =
      some ⟨1000, 64, 4, 7, 3⟩ := by
  decide

/-- Well-formedness of the attachment table maintained by the manager:
keys are unique (it is a dict), each entry's key is its attachment's
`(ptr, extent)` pair, and no two registered attachments overlap without
being range-identical. -/
def WFTable (t : AttachTable) : Prop :=
  (t.map Prod.fst).Nodup ∧
  (∀ e ∈ t, e.2.ptr = e.1.1 ∧ e.2.extent = e.1.2) ∧
  (∀ e1 ∈ t, ∀ e2 ∈ t, e1.2.overlaps e2.2 = true → e1.2.equals e2.2 = true)

instance (t : AttachTable) : Decidable (WFTable t) := by
  unfold WFTable
  infer_instance

theorem overlaps_comm (a b : Attachment) : a.overlaps b = b.overlaps a := by
  unfold Attachment.overlaps
  rw [Bool.or_comm]

theorem overlaps_eq_of_range (a b c : Attachment) (h1 : b.ptr = c.ptr)
    (h2 : b.extent = c.extent) : b.overlaps a = c.overlaps a := by
  unfold Attachment.overlaps Attachment.endAddr
  rw [h1, h2]

theorem equals_eq_true_iff (a b : Attachment) :
    a.equals b = true ↔ a.ptr = b.ptr ∧ a.extent = b.extent := by
  unfold Attachment.equals
  simp

theorem lookupAttachment_eq_none_iff (t : AttachTable) (k : AttachKey) :
    lookupAttachment t k = none ↔ ∀ e ∈ t, e.1 ≠ k := by
  unfold lookupAttachment
  rw [Option.map_eq_none', List.find?_eq_none]
  constructor
  · intro h e he hk
    have := h e he
    rw [hk] at this
    simp at this
  · intro h e he
    have := h e he
    simpa using this

theorem firstOverlap_finds (att : Attachment) :
    ∀ t : AttachTable, (∃ e ∈ t, e.2.overlaps att = true) →
    ∃ O, firstOverlap att t = some O ∧ (∃ k, (k, O) ∈ t) ∧
      O.overlaps att = true := by
  intro t
  induction t with
  | nil => intro h; obtain ⟨e, he, -⟩ := h; cases he
  | cons e rest ih =>
    intro h
    by_cases hov : e.2.overlaps att = true
    · refine ⟨e.2, ?_, ⟨e.1, List.mem_cons_self _ _⟩, hov⟩
      unfold firstOverlap
      rw [if_pos hov]
    · have hrest : ∃ x ∈ rest, x.2.overlaps att = true := by
        obtain ⟨x, hx, hxov⟩ := h
        rcases List.mem_cons.mp hx with h1 | h1
        · exact absurd (h1 ▸ hxov) hov
        · exact ⟨x, h1, hxov⟩
      obtain ⟨O, hO, ⟨k, hk⟩, hOov⟩ := ih hrest
      refine ⟨O, ?_, ⟨k, List.mem_cons_of_mem _ hk⟩, hOov⟩
      unfold firstOverlap
      rw [if_neg hov, hO]

/-- Claim C4: attaching a buffer `B` whose range overlaps, but is not
identical to, an already-registered attachment raises the
illegal-aliasing error, with the attachment table left unchanged — `B`
is never registered and never merged. -/
theorem attach_array_alias_rejection (t : AttachTable) (kA : AttachKey)
    (A : Attachment) (kB : AttachKey) (fresh : Nat × Nat) (share : Bool)
    (hwf : WFTable t) (hmem : (kA, A) ∈ t)
    (hov : Attachment.overlaps ⟨kB.1, kB.2, 1, fresh.1, fresh.2⟩ A = true)
    (hne : Attachment.equals ⟨kB.1, kB.2, 1, fresh.1, fresh.2⟩ A = false) :
    attachArray t kB fresh share = AttachResult.aliasError t := by
  have hlook : lookupAttachment t kB = none := by
    rw [lookupAttachment_eq_none_iff]
    intro e he hk
    obtain ⟨hc1, hc2⟩ := hwf.2.1 e he
    rw [hk] at hc1 hc2
    have hov' : e.2.overlaps A = true := by
      rw [overlaps_eq_of_range A e.2 ⟨kB.1, kB.2, 1, fresh.1, fresh.2⟩ hc1 hc2]
      exact hov
    have heq' := hwf.2.2 e he (kA, A) hmem hov'
    rw [equals_eq_true_iff] at heq'
    have : Attachment.equals ⟨kB.1, kB.2, 1, fresh.1, fresh.2⟩ A = true := by
      rw [equals_eq_true_iff]
      exact ⟨by rw [← heq'.1, hc1], by rw [← heq'.2, hc2]⟩
    rw [this] at hne
    cases hne
  have hex : ∃ e ∈ t, e.2.overlaps ⟨kB.1, kB.2, 1, fresh.1, fresh.2⟩ = true :=
    ⟨(kA, A), hmem, by rw [overlaps_comm]; exact hov⟩
  obtain ⟨O, hO, ⟨kO, hOin⟩, hOov⟩ :=
    firstOverlap_finds ⟨kB.1, kB.2, 1, fresh.1, fresh.2⟩ t hex
  have hOne : O.equals ⟨kB.1, kB.2, 1, fresh.1, fresh.2⟩ = false := by
    cases hOeq : O.equals ⟨kB.1, kB.2, 1, fresh.1, fresh.2⟩ with
    | false => rfl
    | true =>
      rw [equals_eq_true_iff] at hOeq
      obtain ⟨hk1, hk2⟩ := hwf.2.1 (kO, O) hOin
      have hkO : kO = kB := by
        have e1 : kO.1 = kB.1 := by rw [← hk1, hOeq.1]
        have e2 : kO.2 = kB.2 := by rw [← hk2, hOeq.2]
        exact Prod.ext e1 e2
      have := (lookupAttachment_eq_none_iff t kB).mp hlook (kO, O) hOin
      exact absurd hkO this
  simp only [attachArray, hlook, hO, hOne, Bool.false_eq_true, if_false]

/-- Witness for C4: a table holding one 64-byte attachment at address
1000 rejects a new 8-byte buffer at address 1010, leaving the table
unchanged. -/
theorem attach_array_alias_rejection_witness :
    attachArray [((1000, 64), ⟨1000, 64, 1, 7, 3⟩)] (1010, 8) (5, 5) false =
      AttachResult.aliasError [((1000, 64), ⟨1000, 64, 1, 7, 3⟩)] :=
  attach_array_alias_rejection [((1000, 64), ⟨1000, 64, 1, 7, 3⟩)]
    (1000, 64) ⟨1000, 64, 1, 7, 3⟩ (1010, 8) (5, 5) false
    (by decide) (by decide) (by decide) (by decide)

/-! ### Partition congruence -/

theorem searchCongruent_stable (k : PartKey) (cs ts : List Nat)
    (off : Option (List Int)) :
    ∀ (children : List PartChild) (c : PartChild) (ch : List PartChild),
    searchCongruent k cs ts off children = some (c, ch) →
    c.isRestriction = true ∧ c.key = k ∧ c.annot.isSome = true ∧
    searchCongruent k cs ts off ch = some (c, ch) := by
  intro children
  induction children with
  | nil => intro c ch h; cases h
  | cons x rest ih =>
    intro c ch h
    simp only [searchCongruent] at h
    split at h
    · next hx =>
      by_cases ha : x.annot.isSome = true
      · rw [if_pos ha] at h
        simp only [Option.some.injEq, Prod.mk.injEq] at h
        obtain ⟨h1, h2⟩ := h
        subst h1; subst h2
        refine ⟨hx.1, hx.2, ha, ?_⟩
        simp only [searchCongruent, if_pos hx, if_pos ha]
      · rw [if_neg ha] at h
        simp only [Option.some.injEq, Prod.mk.injEq] at h
        obtain ⟨h1, h2⟩ := h
        subst h1; subst h2
        refine ⟨hx.1, hx.2, rfl, ?_⟩
        have hcond : ({ x with annot := some (cs, ts, off) } : PartChild).isRestriction = true ∧
            ({ x with annot := some (cs, ts, off) } : PartChild).key = k := ⟨hx.1, hx.2⟩
        simp only [searchCongruent, if_pos hcond]
        rw [ite_self]
    · next hx =>
      cases hs : searchCongruent k cs ts off rest with
      | none => rw [hs] at h; cases h
      | some r =>
        rw [hs] at h
        simp only [Option.some.injEq, Prod.mk.injEq] at h
        obtain ⟨h1, h2⟩ := h
        subst h1; subst h2
        obtain ⟨p1, p2, p3, p4⟩ := ih r.1 r.2 hs
        refine ⟨p1, p2, p3, ?_⟩
        simp only [searchCongruent, if_neg hx, p4]

theorem searchCongruent_none_append (k : PartKey) (cs ts : List Nat)
    (off : Option (List Int)) (c : PartChild) (hr : c.isRestriction = true)
    (hk : c.key = k) (ha : c.annot.isSome = true) :
    ∀ children : List PartChild,
    searchCongruent k cs ts off children = none →
    searchCongruent k cs ts off (children ++ [c]) =
      some (c, children ++ [c]) := by
  intro children
  induction children with
  | nil =>
    intro _
    simp only [List.nil_append, searchCongruent, if_pos (And.intro hr hk)]
    rw [if_pos ha]
  | cons x rest ih =>
    intro h
    simp only [searchCongruent] at h
    split at h
    · next hx =>
      exfalso
      by_cases hann : x.annot.isSome = true
      · rw [if_pos hann] at h; cases h
      · rw [if_neg hann] at h; cases h
    · next hx =>
      cases hs : searchCongruent k cs ts off rest with
      | some r => rw [hs] at h; cases h
      | none =>
        have hres := ih hs
        simp only [List.cons_append, searchCongruent, if_neg hx, List.append_eq,
          hres]

theorem findOrCreatePartition_key (children : List PartChild)
    (cs ts : List Nat) (off : Option (List Int)) (tr : Option Mat)
    (comp : Bool) (p : PartChild) (s : List PartChild)
    (h : findOrCreatePartition children cs ts off tr comp = some (p, s)) :
    p.key = computePartKey cs ts off tr := by
  simp only [findOrCreatePartition] at h
  split at h
  · cases hs : searchCongruent (computePartKey cs ts off tr) cs ts off children with
    | some r =>
      simp only [hs, Option.some.injEq] at h
      subst h
      exact (searchCongruent_stable _ _ _ _ children p s hs).2.1
    | none =>
      simp only [hs, Option.some.injEq, Prod.mk.injEq] at h
      obtain ⟨h1, -⟩ := h
      subst h1
      rfl
  · cases h

/-- Claim C8 (amended): the partition find-or-create operation is
idempotent — repeating a call with identical `(color_shape, tile_shape,
offset, transform)` arguments returns the very same `PartChild` and
leaves the child list unchanged — and a second call whose derived
congruence key (composed tiling transform, extent rectangle, color-space
bounds) differs returns a distinct `PartChild`. -/
theorem find_or_create_partition_congruence :
    (∀ (children : List PartChild) (cs ts : List Nat)
       (off : Option (List Int)) (tr : Option Mat) (comp : Bool)
       (p1 : PartChild) (s1 : List PartChild),
      findOrCreatePartition children cs ts off tr comp = some (p1, s1) →
      findOrCreatePartition s1 cs ts off tr comp = some (p1, s1)) ∧
    (∀ (children : List PartChild) (cs ts : List Nat)
       (off : Option (List Int)) (tr : Option Mat)
       (cs' ts' : List Nat) (off' : Option (List Int)) (tr' : Option Mat)
       (comp comp' : Bool) (p1 : PartChild) (s1 : List PartChild)
       (p2 : PartChild) (s2 : List PartChild),
      computePartKey cs ts off tr ≠ computePartKey cs' ts' off' tr' →
      findOrCreatePartition children cs ts off tr comp = some (p1, s1) →
      findOrCreatePartition s1 cs' ts' off' tr' comp' = some (p2, s2) →
      p2 ≠ p1) := by
  constructor
  · intro children cs ts off tr comp p1 s1 h
    simp only [findOrCreatePartition] at h ⊢
    split at h
    · next hlen =>
      rw [if_pos hlen]
      cases hs : searchCongruent (computePartKey cs ts off tr) cs ts off children with
      | some r =>
        simp only [hs, Option.some.injEq] at h
        subst h
        simp only [(searchCongruent_stable _ _ _ _ children p1 s1 hs).2.2.2]
      | none =>
        simp only [hs, Option.some.injEq, Prod.mk.injEq] at h
        obtain ⟨h1, h2⟩ := h
        subst h1; subst h2
        have happ := searchCongruent_none_append (computePartKey cs ts off tr)
          cs ts off
          ⟨true, computePartKey cs ts off tr, some (cs, ts, off)⟩
          rfl rfl rfl children hs
        simp only [happ]
    · cases h
  · intro children cs ts off tr cs' ts' off' tr' comp comp' p1 s1 p2 s2 hk h1 h2
    have k1 := findOrCreatePartition_key children cs ts off tr comp p1 s1 h1
    have k2 := findOrCreatePartition_key s1 cs' ts' off' tr' comp' p2 s2 h2
    intro hc
    rw [hc, k1] at k2
    exact hk k2

/-- Witness for C8: idempotence on a fresh region with color shape `(2,)`
and tile shape `(1,)`, and distinctness against a second call with color
shape `(3,)`. -/
theorem find_or_create_partition_congruence_witness :
    findOrCreatePartition
      [⟨true, ⟨[[1]], [0], [0], [0], [1]⟩, some ([2], [1], none)⟩]
      [2] [1] none none true =
      some (⟨true, ⟨[[1]], [0], [0], [0], [1]⟩, some ([2], [1], none)⟩,
        [⟨true, ⟨[[1]], [0], [0], [0], [1]⟩, some ([2], [1], none)⟩]) ∧
    (⟨true, ⟨[[1]], [0], [0], [0], [2]⟩, some ([3], [1], none)⟩ : PartChild) ≠
      ⟨true, ⟨[[1]], [0], [0], [0], [1]⟩, some ([2], [1], none)⟩ := by
  constructor
  · exact find_or_create_partition_congruence.1 [] [2] [1] none none true
      ⟨true, ⟨[[1]], [0], [0], [0], [1]⟩, some ([2], [1], none)⟩
      [⟨true, ⟨[[1]], [0], [0], [0], [1]⟩, some ([2], [1], none)⟩] (by decide)
  · exact find_or_create_partition_congruence.2 []
      [2] [1] none none [3] [1] none none true true
      ⟨true, ⟨[[1]], [0], [0], [0], [1]⟩, some ([2], [1], none)⟩
      [⟨true, ⟨[[1]], [0], [0], [0], [1]⟩, some ([2], [1], none)⟩]
      ⟨true, ⟨[[1]], [0], [0], [0], [2]⟩, some ([3], [1], none)⟩
      [⟨true, ⟨[[1]], [0], [0], [0], [1]⟩, some ([2], [1], none)⟩,
        ⟨true, ⟨[[1]], [0], [0], [0], [2]⟩, some ([3], [1], none)⟩]
      (by decide) (by decide) (by decide)

/-- Counterexample to C8 as stated: changing the `offset` parameter from
`None` to the explicit zero offset `(0,)` is a changed parameter, yet the
second call resolves to the very same `PartChild` (the derived congruence
key is unchanged), not a distinct one. -/
theorem find_or_create_partition_param_counterexample :
    (some [(0 : Int)] ≠ (none : Option (List Int))) ∧
    findOrCreatePartition [] [2] [1] none none true =
      some (⟨true, ⟨[[1]], [0], [0], [0], [1]⟩, some ([2], [1], none)⟩,
        [⟨true, ⟨[[1]], [0], [0], [0], [1]⟩, some ([2], [1], none)⟩]) ∧
    findOrCreatePartition
      [⟨true, ⟨[[1]], [0], [0], [0], [1]⟩, some ([2], [1], none)⟩]
      [2] [1] (some [0]) none true =
      some (⟨true, ⟨[[1]], [0], [0], [0], [1]⟩, some ([2], [1], none)⟩,
        [⟨true, ⟨[[1]], [0], [0], [0], [1]⟩, some ([2], [1], none)⟩]) := by
  decide

/-! ### The launch-space planner: no-decomposition cases and tile shapes -/

theorem extractFactorsAux_spec (p : Nat) (hp : 2 ≤ p) :
    ∀ fuel n, n ≤ fuel → 1 ≤ n →
    (extractFactorsAux p fuel n).1.prod * (extractFactorsAux p fuel n).2 = n ∧
    1 ≤ (extractFactorsAux p fuel n).2 := by
  intro fuel
  induction fuel with
  | zero => intro n hle hge; omega
  | succ fuel ih =>
    intro n hle hge
    simp only [extractFactorsAux]
    split
    · next hcond =>
      have hdvd : p ∣ n := Nat.dvd_of_mod_eq_zero hcond.2.2
      have hge' : 1 ≤ n / p := by
        have := Nat.le_of_dvd (by omega) hdvd
        exact Nat.one_le_div_iff (by omega) |>.mpr this
      have hlt : n / p < n := Nat.div_lt_self (by omega) (by omega)
      obtain ⟨ih1, ih2⟩ := ih (n / p) (by omega) hge'
      constructor
      · simp only [List.prod_cons]
        rw [Nat.mul_assoc, ih1, Nat.mul_div_cancel' hdvd]
      · exact ih2
    · exact ⟨Nat.one_mul n, hge⟩

theorem extractFactors_spec (p n : Nat) (hp : 2 ≤ p) (hn : 1 ≤ n) :
    (extractFactors p n).1.prod * (extractFactors p n).2 = n ∧
    1 ≤ (extractFactors p n).2 :=
  extractFactorsAux_spec p hp n n (Nat.le_refl n) hn

theorem runtimeInit_spec (np msv : Nat) (cfg : Config)
    (h : runtimeInit np msv = some cfg) :
    cfg.piece_factors.prod = np ∧ cfg.num_pieces = np ∧
    cfg.min_shard_volume = msv := by
  simp only [runtimeInit] at h
  split at h
  · cases h
  · next h0 =>
    split at h
    · cases h
    · next h11 =>
      simp only [Option.some.injEq] at h
      subst h
      refine ⟨?_, rfl, rfl⟩
      obtain ⟨e2p, e2ge⟩ := extractFactors_spec 2 np (by omega) (by omega)
      obtain ⟨e3p, e3ge⟩ := extractFactors_spec 3 (extractFactors 2 np).2
        (by omega) e2ge
      obtain ⟨e5p, e5ge⟩ := extractFactors_spec 5
        (extractFactors 3 (extractFactors 2 np).2).2 (by omega) e3ge
      obtain ⟨e7p, e7ge⟩ := extractFactors_spec 7
        (extractFactors 5 (extractFactors 3 (extractFactors 2 np).2).2).2
        (by omega) e5ge
      obtain ⟨e11p, e11ge⟩ := extractFactors_spec 11
        (extractFactors 7 (extractFactors 5 (extractFactors 3
          (extractFactors 2 np).2).2).2).2 (by omega) e7ge
      have hres1 :
          (extractFactors 11 (extractFactors 7 (extractFactors 5
            (extractFactors 3 (extractFactors 2 np).2).2).2).2).2 = 1 := by
        omega
      simp only [List.prod_reverse, List.prod_append]
      rw [hres1, Nat.mul_one] at e11p
      calc (extractFactors 2 np).1.prod *
            (extractFactors 3 (extractFactors 2 np).2).1.prod *
            (extractFactors 5 (extractFactors 3 (extractFactors 2 np).2).2).1.prod *
            (extractFactors 7 (extractFactors 5 (extractFactors 3
              (extractFactors 2 np).2).2).2).1.prod *
            (extractFactors 11 (extractFactors 7 (extractFactors 5
              (extractFactors 3 (extractFactors 2 np).2).2).2).2).1.prod
          = (extractFactors 2 np).1.prod *
              ((extractFactors 3 (extractFactors 2 np).2).1.prod *
                ((extractFactors 5 (extractFactors 3 (extractFactors 2 np).2).2).1.prod *
                  ((extractFactors 7 (extractFactors 5 (extractFactors 3
                    (extractFactors 2 np).2).2).2).1.prod *
                    (extractFactors 11 (extractFactors 7 (extractFactors 5
                      (extractFactors 3 (extractFactors 2 np).2).2).2).2).1.prod))) := by
            ring
        _ = np := by rw [e11p, e7p, e5p, e3p, e2p]

/-- Claim C5 (amended): the planner returns "no parallel decomposition"
when `num_pieces` is 1, when every extent of the shape is 0 or 1 (so
there is no element-bearing dimension of extent above 1 at all), and —
cached per shape — when `max_pieces = ceil(volume / min_shard_volume)`
over the extent-pruned shape equals 1. -/
theorem launch_space_no_decomposition (cfg : Config) (cache : LaunchCache)
    (shape : List Nat) :
    (cfg.num_pieces = 1 →
      computeParallelLaunchSpaceByShape cfg cache shape = some (none, cache)) ∧
    (cfg.num_pieces ≠ 0 → shape.all (fun e => e ≤ 1) = true →
      computeParallelLaunchSpaceByShape cfg cache shape = some (none, cache)) ∧
    (2 ≤ cfg.num_pieces → cacheLookup cache shape = none →
      shape.contains 0 = false → ¬ shape.all (fun e => e ≤ 1) = true →
      cfg.min_shard_volume ≠ 0 →
      ((shape.filter fun e => e ≠ 1).prod + cfg.min_shard_volume - 1) /
          cfg.min_shard_volume = 1 →
      computeParallelLaunchSpaceByShape cfg cache shape =
        some (none, cacheInsert cache shape none)) := by
  refine ⟨?_, ?_, ?_⟩
  · intro h1
    unfold computeParallelLaunchSpaceByShape
    rw [if_neg (by omega), if_pos h1]
  · intro h0 hall
    unfold computeParallelLaunchSpaceByShape
    by_cases h1 : cfg.num_pieces = 1
    · rw [if_neg h0, if_pos h1]
    · rw [if_neg h0, if_neg h1, if_pos hall]
  · intro h2 hlook hc0 hall hmsv hmax
    unfold computeParallelLaunchSpaceByShape
    rw [if_neg (by omega), if_neg (by omega), if_neg hall]
    simp only [hlook, hc0, Bool.false_eq_true, if_false, if_neg hmsv, hmax]
    simp

/-- Witness for C5 (amended): the three no-decomposition cases at
concrete inputs — one piece, an all-ones shape, and a pruned volume not
above `min_shard_volume`. -/
theorem launch_space_no_decomposition_witness :
    computeParallelLaunchSpaceByShape ⟨1, 1, []⟩ [] [7, 9] = some (none, []) ∧
    computeParallelLaunchSpaceByShape ⟨4, 1, [2, 2]⟩ [] [1, 1, 1] =
      some (none, []) ∧
    computeParallelLaunchSpaceByShape ⟨4, 100, [2, 2]⟩ [] [5, 2] =
      some (none, [([5, 2], none)]) := by
  refine ⟨?_, ?_, ?_⟩
  · exact (launch_space_no_decomposition ⟨1, 1, []⟩ [] [7, 9]).1 rfl
  · exact (launch_space_no_decomposition ⟨4, 1, [2, 2]⟩ [] [1, 1, 1]).2.1
      (by decide) (by decide)
  · exact (launch_space_no_decomposition ⟨4, 100, [2, 2]⟩ [] [5, 2]).2.2
      (by decide) (by decide) (by decide) (by decide) (by decide) (by decide)

/-- Counterexample to C5 as stated: shape `(5, 1)` has exactly one
element-bearing dimension of extent above 1 (every other extent is 1), so
the claim predicts "no parallel decomposition"; the planner nevertheless
returns the decomposition `(4, 1)` (and caches it) for a 4-piece runtime
with unit shard volume. -/
theorem launch_space_prune_counterexample :
    runtimeInit 4 1 = some ⟨4, 1, [2, 2]⟩ ∧
    ([5, 1].filter fun e => 1 < e).length ≤ 1 ∧
    computeParallelLaunchSpaceByShape ⟨4, 1, [2, 2]⟩ [] [5, 1] =
      some (some [4, 1], [([5, 1], some [4, 1])]) := by
  decide

/-- Claim C7: `compute_tile_shape` is the per-axis ceiling division
`(extent + pieces - 1) // pieces` for every shape and launch space of
equal length (with positive piece counts, zero raising
`ZeroDivisionError`), and the end-to-end scenario: shape `(100,)` with
`target_pieces = 4` and `min_shard_volume = 1` plans to `(4,)`, whose
tile shape is `(25,)`. -/
theorem compute_tile_shape_ceiling :
    (∀ shape ls : List Nat, shape.length = ls.length → (∀ p ∈ ls, 0 < p) →
      computeTileShape shape ls =
        some (List.zipWith (fun x y => (x + y - 1) / y) shape ls)) ∧
    runtimeInit 4 1 = some ⟨4, 1, [2, 2]⟩ ∧
    computeParallelLaunchSpaceByShape ⟨4, 1, [2, 2]⟩ [] [100] =
      some (some [4], [([100], some [4])]) ∧
    computeTileShape [100] [4] = some [25] := by
  refine ⟨?_, by decide, by decide, by decide⟩
  intro shape ls hlen hpos
  unfold computeTileShape
  rw [if_pos]
  exact ⟨hlen, List.all_eq_true.mpr fun x hx => decide_eq_true (hpos x hx)⟩

/-- Witness for C7: the general ceiling-division conjunct instantiated at
shape `(100,)` and launch space `(4,)`. -/
theorem compute_tile_shape_ceiling_witness :
    computeTileShape [100] [4] =
      some (List.zipWith (fun x y => (x + y - 1) / y) [100] [4]) :=
  compute_tile_shape_ceiling.1 [100] [4] (by decide)
    (fun p hp => by simp only [List.mem_singleton] at hp; omega)

/-! ### Launch-space validity (divisibility, factor pairs, extent bounds) -/

theorem projectBack_self :
    ∀ shape : List Nat, projectBack shape (shape.filter fun e => e ≠ 1) = shape := by
  intro shape
  induction shape with
  | nil => rfl
  | cons e rest ih =>
    by_cases he : e = 1
    · subst he
      simp only [projectBack]
      rw [if_pos trivial, List.filter_cons, if_neg (by simp), ih]
    · simp only [projectBack]
      rw [if_neg he, List.filter_cons, if_pos (by simpa using he)]
      simp only [ih]

theorem projectBack_le :
    ∀ (shape tr : List Nat),
    List.Forall₂ (fun a b => a ≤ b) tr (shape.filter fun e => e ≠ 1) →
    List.Forall₂ (fun a b => a ≤ b) (projectBack shape tr) shape := by
  intro shape
  induction shape with
  | nil => intro tr _; exact List.Forall₂.nil
  | cons e rest ih =>
    intro tr hf
    by_cases he : e = 1
    · subst he
      rw [List.filter_cons, if_neg (by simp)] at hf
      simp only [projectBack]
      rw [if_pos trivial]
      exact List.Forall₂.cons (Nat.le_refl 1) (ih tr hf)
    · rw [List.filter_cons, if_pos (by simpa using he)] at hf
      cases hf with
      | cons hle hrest =>
        simp only [projectBack]
        rw [if_neg he]
        exact List.Forall₂.cons hle (ih _ hrest)

theorem projectBack_prod :
    ∀ (shape tr : List Nat),
    tr.length = (shape.filter fun e => e ≠ 1).length →
    (projectBack shape tr).prod = tr.prod := by
  intro shape
  induction shape with
  | nil =>
    intro tr hl
    simp only [List.filter_nil, List.length_nil] at hl
    rw [List.eq_nil_of_length_eq_zero hl]
    rfl
  | cons e rest ih =>
    intro tr hl
    by_cases he : e = 1
    · subst he
      rw [List.filter_cons, if_neg (by simp)] at hl
      simp only [projectBack]
      rw [if_pos trivial]
      simp only [List.prod_cons, Nat.one_mul]
      exact ih tr hl
    · rw [List.filter_cons, if_pos (by simpa using he)] at hl
      cases tr with
      | nil => simp at hl
      | cons t tr' =>
        simp only [List.length_cons, Nat.add_right_cancel_iff] at hl
        simp only [projectBack]
        rw [if_neg he]
        simp only [List.prod_cons]
        rw [ih tr' hl]

theorem bumpAt_length (res : List Nat) (i f : Nat) :
    (bumpAt res i f).length = res.length := by
  simp [bumpAt]

theorem bumpAt_prod :
    ∀ (res : List Nat) (i f : Nat), i < res.length →
    (bumpAt res i f).prod = f * res.prod := by
  intro res
  induction res with
  | nil => intro i f h; simp at h
  | cons r rs ih =>
    intro i f h
    cases i with
    | zero =>
      simp only [bumpAt, List.getD_cons_zero, List.set_cons_zero, List.prod_cons]
      ring
    | succ j =>
      have hj : j < rs.length := by simpa using h
      simp only [bumpAt, List.getD_cons_succ, List.set_cons_succ, List.prod_cons]
      have := ih j f hj
      simp only [bumpAt] at this
      rw [this]
      ring

theorem listMax_mem : ∀ l : List Nat, l ≠ [] → listMax l ∈ l := by
  intro l
  induction l with
  | nil => intro h; exact absurd rfl h
  | cons x xs ih =>
    intro _
    cases hxs : xs with
    | nil => simp [listMax]
    | cons y ys =>
      rw [← hxs]
      have hne : xs ≠ [] := by rw [hxs]; exact List.cons_ne_nil y ys
      simp only [listMax, List.foldr_cons]
      rcases max_choice x (xs.foldr max 0) with hm | hm
      · rw [hm]; exact List.mem_cons_self x xs
      · rw [hm]
        exact List.mem_cons_of_mem x (ih hne)

theorem argmaxIdx_lt (l : List Nat) (h : l ≠ []) : argmaxIdx l < l.length :=
  List.indexOf_lt_length.mpr (listMax_mem l h)

theorem applyFactors_spec (mp : Nat) (ts : List Nat) (h2 : 2 ≤ ts.length) :
    ∀ (fs res : List Nat) (fprod : Nat), res.length = ts.length →
    (applyFactors mp ts fs res fprod).length = ts.length ∧
    (applyFactors mp ts fs res fprod).prod ∣ res.prod * fs.prod := by
  intro fs
  induction fs with
  | nil =>
    intro res fprod hlen
    simp only [applyFactors]
    exact ⟨hlen, by simp⟩
  | cons f rest ih =>
    intro res fprod hlen
    simp only [applyFactors]
    split
    · exact ⟨hlen, Dvd.intro _ rfl⟩
    · have hrem_len : (List.zipWith (fun s r => (s + r - 1) / r) ts res).length =
          ts.length := by
        rw [List.length_zipWith, hlen, Nat.min_self]
      have hrem_ne : List.zipWith (fun s r => (s + r - 1) / r) ts res ≠ [] := by
        intro hn
        rw [hn] at hrem_len
        simp at hrem_len
        omega
      obtain ⟨i, hi, hres⟩ : ∃ i, i < res.length ∧
          (if argmaxIdx (List.zipWith (fun s r => (s + r - 1) / r) ts res) + 1 <
              ts.length then
            bumpAt res (argmaxIdx (List.zipWith (fun s r => (s + r - 1) / r) ts res)) f
          else if (List.zipWith (fun s r => (s + r - 1) / r) ts res).length = 1 ∨
              32 ≤ (List.zipWith (fun s r => (s + r - 1) / r) ts res).getD
                (argmaxIdx (List.zipWith (fun s r => (s + r - 1) / r) ts res)) 0 / f then
            bumpAt res (argmaxIdx (List.zipWith (fun s r => (s + r - 1) / r) ts res)) f
          else if 0 < (List.zipWith (fun s r => (s + r - 1) / r) ts res).getD
              ((List.zipWith (fun s r => (s + r - 1) / r) ts res).indexOf
                (listMax (List.zipWith (fun s r => (s + r - 1) / r) ts res).dropLast)) 0 / f then
            bumpAt res ((List.zipWith (fun s r => (s + r - 1) / r) ts res).indexOf
              (listMax (List.zipWith (fun s r => (s + r - 1) / r) ts res).dropLast)) f
          else bumpAt res (ts.length - 1) f) = bumpAt res i f := by
        have hbig : argmaxIdx (List.zipWith (fun s r => (s + r - 1) / r) ts res) <
            res.length := by
          have := argmaxIdx_lt _ hrem_ne
          rw [hrem_len, ← hlen] at this
          exact this
        have hbig2 : (List.zipWith (fun s r => (s + r - 1) / r) ts res).indexOf
            (listMax (List.zipWith (fun s r => (s + r - 1) / r) ts res).dropLast) <
            res.length := by
          have hdl : (List.zipWith (fun s r => (s + r - 1) / r) ts res).dropLast ≠ [] := by
            intro hn
            have := List.length_dropLast (List.zipWith (fun s r => (s + r - 1) / r) ts res)
            rw [hn] at this
            simp only [List.length_nil] at this
            omega
          have hmem := List.dropLast_subset _ (listMax_mem _ hdl)
          have := List.indexOf_lt_length.mpr hmem
          rw [hrem_len, ← hlen] at this
          exact this
        split
        · exact ⟨_, hbig, rfl⟩
        · split
          · exact ⟨_, hbig, rfl⟩
          · split
            · exact ⟨_, hbig2, rfl⟩
            · exact ⟨ts.length - 1, by omega, rfl⟩
      rw [hres]
      obtain ⟨ihl, ihd⟩ := ih (bumpAt res i f) (f * fprod)
        (by rw [bumpAt_length, hlen])
      refine ⟨ihl, ?_⟩
      have heq : (bumpAt res i f).prod * rest.prod =
          res.prod * (f :: rest).prod := by
        rw [bumpAt_prod res i f hi, List.prod_cons]
        ring
      rw [← heq]
      exact ihd

theorem findDivDown_spec (p : Nat) (_hp : 1 ≤ p) :
    ∀ n, 1 ≤ n → p % findDivDown p n = 0 ∧ 1 ≤ findDivDown p n := by
  intro n
  induction n with
  | zero => intro h; omega
  | succ n ih =>
    intro _
    simp only [findDivDown]
    split
    · next hc => exact ⟨hc, Nat.le_add_left 1 n⟩
    · next hc =>
      have hn : 1 ≤ n := by
        by_contra hn0
        have : n = 0 := by omega
        subst this
        exact hc (Nat.mod_one p)
      exact ih hn

theorem findDivUp_spec (p : Nat) :
    ∀ fuel n r, findDivUp p fuel n = some r → p % r = 0 ∧ 1 ≤ r := by
  intro fuel
  induction fuel with
  | zero => intro n r h; cases h
  | succ fuel ih =>
    intro n r h
    simp only [findDivUp] at h
    split at h
    · cases h
    · next hn0 =>
      split at h
      · next hc =>
        cases h
        exact ⟨hc, by omega⟩
      · exact ih (n + 1) r h

theorem launch2DPickAux_mul (mp nx ny n1 n2 : Nat) (h1 : n1 ∣ mp)
    (h2 : n2 ∣ mp) :
    (launch2DPickAux mp nx ny n1 n2).1 * (launch2DPickAux mp nx ny n1 n2).2 =
      mp := by
  unfold launch2DPickAux
  split
  · exact Nat.mul_div_cancel' h1
  · exact Nat.mul_div_cancel' h2

theorem launch2DPick_spec (mp nx ny px py : Nat) (hmp : 1 ≤ mp)
    (h : launch2DPick mp nx ny = some (px, py)) : px * py = mp := by
  unfold launch2DPick at h
  cases hdu : findDivUp mp (mp + 1)
      (ceilSqrtAdj (mp * nx) ny) with
  | none =>
    rw [hdu] at h
    cases h
  | some n2 =>
    rw [hdu] at h
    have hn1 := findDivDown_spec mp hmp
      (max (floorSqrtAdj (mp * nx) ny) 1)
      (Nat.le_max_right _ 1)
    have hn2 := findDivUp_spec mp (mp + 1) _ n2 hdu
    have haux := launch2DPickAux_mul mp nx ny
      (findDivDown mp
        (max (floorSqrtAdj (mp * nx) ny) 1))
      n2 (Nat.dvd_of_mod_eq_zero hn1.1) (Nat.dvd_of_mod_eq_zero hn2.1)
    simp only [Option.some.injEq] at h
    have hx : px = (launch2DPickAux mp nx ny
        (findDivDown mp
          (max (floorSqrtAdj (mp * nx) ny) 1))
        n2).1 := by rw [h]
    have hy : py = (launch2DPickAux mp nx ny
        (findDivDown mp
          (max (floorSqrtAdj (mp * nx) ny) 1))
        n2).2 := by rw [h]
    rw [hx, hy]
    exact haux

theorem launch2D_spec (mp volume : Nat) (ts tr : List Nat) (hmp : 1 ≤ mp)
    (h : launch2D mp volume ts = some tr) :
    tr = ts ∨ ∃ a b, a * b = mp ∧ ∃ sx sy, ts = [sx, sy] ∧
      tr = [min a sx, min b sy] := by
  unfold launch2D at h
  split at h
  · left
    cases h
    rfl
  · right
    match ts, h with
    | [sx, sy], h =>
      simp only at h
      cases hp : launch2DPick mp (if sy < sx then sy else sx)
          (if sy < sx then sx else sy) with
      | none =>
        rw [hp] at h
        cases h
      | some pxy =>
        obtain ⟨px, py⟩ := pxy
        rw [hp] at h
        simp only [Option.some.injEq] at h
        have hpick := launch2DPick_spec mp _ _ px py hmp hp
        by_cases hsw : sy < sx
        · rw [if_pos hsw] at h
          exact ⟨py, px, by rw [Nat.mul_comm]; exact hpick, sx, sy, rfl, h.symm⟩
        · rw [if_neg hsw] at h
          exact ⟨px, py, hpick, sx, sy, rfl, h.symm⟩

theorem map_one_prod (ts : List Nat) : (ts.map fun _ => 1).prod = 1 := by
  induction ts with
  | nil => rfl
  | cons x rest ih => simp only [List.map_cons, List.prod_cons, Nat.one_mul, ih]

/-- Claim C6 (amended): whenever the planner (run on a configuration
produced by runtime initialization, with a fresh cache) returns a
decomposition, then: with at least 3 pruned dimensions the product of the
per-dimension piece counts divides `num_pieces`; with exactly 2 pruned
dimensions the result is either the pruned shape itself (reinserted —
this happens when the pruned volume is below the piece target) or the
per-axis extent-clamp of a factor pair of `num_pieces`; and with at most
2 pruned dimensions no per-dimension count exceeds the corresponding
extent. -/
theorem launch_space_validity :
    ∀ (np msv : Nat) (cfg : Config) (shape res : List Nat)
      (cache' : LaunchCache),
      runtimeInit np msv = some cfg →
      computeParallelLaunchSpaceByShape cfg [] shape = some (some res, cache') →
      (3 ≤ (shape.filter fun e => e ≠ 1).length → res.prod ∣ np) ∧
      ((shape.filter fun e => e ≠ 1).length = 2 →
        res = shape ∨ ∃ a b, a * b = np ∧ ∃ sx sy,
          shape.filter (fun e => e ≠ 1) = [sx, sy] ∧
          res = projectBack shape [min a sx, min b sy]) ∧
      ((shape.filter fun e => e ≠ 1).length ≤ 2 →
        List.Forall₂ (fun a b => a ≤ b) res shape) := by
  intro np msv cfg shape res cache' hinit h
  obtain ⟨hprod, hnp, hmsv⟩ := runtimeInit_spec np msv cfg hinit
  have hnp0 : np ≠ 0 := by
    intro hc
    subst hc
    simp [runtimeInit] at hinit
  simp only [computeParallelLaunchSpaceByShape, cacheLookup, List.find?_nil,
    Option.map_none'] at h
  rw [if_neg (by omega : ¬ cfg.num_pieces = 0)] at h
  split at h
  · next h1 =>
    simp only [Option.some.injEq, Prod.mk.injEq] at h
    cases h.1
  · next h1 =>
    split at h
    · next hall =>
      simp only [Option.some.injEq, Prod.mk.injEq] at h
      cases h.1
    · next hall =>
      have hexgt : ∃ e ∈ shape, 1 < e := by
        by_contra hc
        push_neg at hc
        exact hall (List.all_eq_true.mpr fun e he => decide_eq_true (hc e he))
      have hfilter_ne : (shape.filter fun e => e ≠ 1) ≠ [] := by
        obtain ⟨e, he, hegt⟩ := hexgt
        intro hc
        have hmem : e ∈ shape.filter fun e => e ≠ 1 :=
          List.mem_filter.mpr ⟨he, decide_eq_true (by omega)⟩
        rw [hc] at hmem
        cases hmem
      split at h
      · cases h
      · split at h
        · cases h
        · split at h
          · cases h
          · next hmax1 =>
            split at h
            · next h1max =>
              simp only [Option.some.injEq, Prod.mk.injEq] at h
              cases h.1
            · next h1max =>
              split at h
              · next hd0 =>
                exfalso
                exact hfilter_ne (List.eq_nil_of_length_eq_zero hd0)
              · next hd0 =>
                split at h
                · next hd1 =>
                  simp only [Option.some.injEq, Prod.mk.injEq] at h
                  obtain ⟨hres, -⟩ := h
                  refine ⟨by omega, by omega, fun _ => ?_⟩
                  obtain ⟨x, hx⟩ := List.length_eq_one.mp hd1
                  rw [← hres]
                  apply projectBack_le
                  rw [hx]
                  simp only [List.headD_cons]
                  exact List.Forall₂.cons (Nat.min_le_left x cfg.num_pieces)
                    List.Forall₂.nil
                · next hd1 =>
                  split at h
                  · next hd2 =>
                    cases h2d : launch2D cfg.num_pieces
                        (shape.filter fun e => e ≠ 1).prod
                        (shape.filter fun e => e ≠ 1) with
                    | none => rw [h2d] at h; cases h
                    | some tr =>
                      rw [h2d] at h
                      simp only [Option.some.injEq, Prod.mk.injEq] at h
                      obtain ⟨hres, -⟩ := h
                      have hsp := launch2D_spec cfg.num_pieces
                        (shape.filter fun e => e ≠ 1).prod
                        (shape.filter fun e => e ≠ 1) tr (by omega) h2d
                      refine ⟨by omega, fun _ => ?_, fun _ => ?_⟩
                      · rcases hsp with hsp | ⟨a, b, hab, sx, sy, hts, htr⟩
                        · left
                          rw [← hres, hsp, projectBack_self]
                        · right
                          exact ⟨a, b, by rw [← hnp]; exact hab, sx, sy, hts,
                            by rw [← hres, htr]⟩
                      · rcases hsp with hsp | ⟨a, b, hab, sx, sy, hts, htr⟩
                        · rw [← hres, hsp, projectBack_self]
                          exact List.forall₂_same.mpr fun x _ => Nat.le_refl x
                        · rw [← hres, htr]
                          apply projectBack_le
                          rw [hts]
                          exact List.Forall₂.cons (Nat.min_le_right a sx)
                            (List.Forall₂.cons (Nat.min_le_right b sy)
                              List.Forall₂.nil)
                  · next hd2 =>
                    have hd3 : 3 ≤ (shape.filter fun e => e ≠ 1).length := by
                      omega
                    simp only [Option.some.injEq, Prod.mk.injEq] at h
                    obtain ⟨hres, -⟩ := h
                    refine ⟨fun _ => ?_, by omega, by omega⟩
                    obtain ⟨hlen, hdvd⟩ := applyFactors_spec cfg.num_pieces
                      (shape.filter fun e => e ≠ 1) (by omega)
                      cfg.piece_factors
                      ((shape.filter fun e => e ≠ 1).map fun _ => 1) 1
                      (by rw [List.length_map])
                    rw [← hres]
                    unfold launchND
                    rw [projectBack_prod shape _ hlen]
                    rw [map_one_prod, Nat.one_mul, hprod] at hdvd
                    exact hdvd

/-- Witness for C6 (amended): an 8-piece runtime on the 3-dimensional
shape `(2, 2, 2)` plans to `(2, 2, 2)`, whose product divides 8, and on
the 2-dimensional shape `(2, 3)` the planner answer satisfies the 2-D
disjunction and the extent bound. -/
theorem launch_space_validity_witness :
    ([2, 2, 2] : List Nat).prod ∣ 8 ∧
    (([2, 3] : List Nat) = [2, 3] ∨ ∃ a b, a * b = 8 ∧ ∃ sx sy,
      ([2, 3].filter fun e => e ≠ 1) = [sx, sy] ∧
      ([2, 3] : List Nat) = projectBack [2, 3] [min a sx, min b sy]) ∧
    List.Forall₂ (fun a b => a ≤ b) [2, 3] [2, 3] := by
  refine ⟨?_, ?_, ?_⟩
  · exact (launch_space_validity 8 1 ⟨8, 1, [2, 2, 2]⟩ [2, 2, 2] [2, 2, 2]
      [([2, 2, 2], some [2, 2, 2])] (by decide) (by decide)).1 (by decide)
  · exact (launch_space_validity 8 1 ⟨8, 1, [2, 2, 2]⟩ [2, 3] [2, 3]
      [([2, 3], some [2, 3])] (by decide) (by decide)).2.1 (by decide)
  · exact (launch_space_validity 8 1 ⟨8, 1, [2, 2, 2]⟩ [2, 3] [2, 3]
      [([2, 3], some [2, 3])] (by decide) (by decide)).2.2 (by decide)

/-- Counterexample to C6 as stated: on the 2-dimensional shape `(2, 3)`
with `target_pieces = 8`, the planner returns `(2, 3)` (the pruned volume
6 is below the target), which is not a factor pair of 8; and on the
3-dimensional shape `(5, 2, 2)` with the same 8-piece runtime it returns
`(8, 1, 1)`, whose first per-dimension piece count 8 exceeds the
corresponding extent 5 — so the "in every case" extent bound fails for
3 or more dimensions as well. -/
theorem launch_space_validity_counterexample :
    runtimeInit 8 1 = some ⟨8, 1, [2, 2, 2]⟩ ∧
    ([2, 3].filter fun e => e ≠ 1).length = 2 ∧
    computeParallelLaunchSpaceByShape ⟨8, 1, [2, 2, 2]⟩ [] [2, 3] =
      some (some [2, 3], [([2, 3], some [2, 3])]) ∧
    ([5, 2, 2].filter fun e => e ≠ 1).length = 3 ∧
    computeParallelLaunchSpaceByShape ⟨8, 1, [2, 2, 2]⟩ [] [5, 2, 2] =
      some (some [8, 1, 1], [([5, 2, 2], some [8, 1, 1])]) ∧
    ¬ (8 : Nat) ≤ 5 ∧
    (∀ a b : Nat, ([2, 3] : List Nat) = [a, b] → a * b ≠ 8) := by
  refine ⟨by decide, by decide, by decide, by decide, by decide, by decide, ?_⟩
  intro a b hab
  have ha : a = 2 := by
    have := congrArg (fun l => l.headD 0) hab
    simpa using this.symm
  have hb : b = 3 := by
    have := congrArg (fun l => l.getD 1 0) hab
    simpa using this.symm
  subst ha
  subst hb
  decide

/-! ### Claim C9: projection and transpose functor identifiers -/

theorem maskFoldAux (mask : List Bool) : ∀ i acc, acc < 2 ^ i →
    List.foldl (fun acc iv => acc ||| ((if iv.2 then 1 else 0) <<< iv.1)) acc
      (List.enumFrom i mask) = acc + maskSum i mask := by
  induction mask with
  | nil => intro i acc _; simp [maskSum]
  | cons b rest ih =>
    intro i acc hacc
    simp only [List.enumFrom, List.foldl_cons]
    cases b with
    | false =>
      have h0 : acc ||| ((if false then 1 else 0) <<< i) = acc := by
        simp
      rw [h0, ih (i + 1) acc (lt_of_lt_of_le hacc (Nat.pow_le_pow_right (by norm_num) (by omega)))]
      simp [maskSum]
    | true =>
      have h1 : acc ||| ((if true then 1 else 0) <<< i) = acc + 2 ^ i := by
        have := Nat.mul_add_lt_is_or hacc 1
        simp only [Nat.mul_one] at this
        simp only [if_pos trivial, Nat.shiftLeft_eq, Nat.one_mul]
        rw [Nat.lor_comm, ← this, Nat.add_comm]
      rw [h1, ih (i + 1) (acc + 2 ^ i) (by rw [pow_succ]; omega)]
      simp only [maskSum, if_pos trivial]
      omega

theorem maskBits_eq (mask : List Bool) : maskBits mask = maskSum 0 mask := by
  unfold maskBits
  rw [show mask.enum = List.enumFrom 0 mask from rfl,
    maskFoldAux mask 0 0 (by norm_num), Nat.zero_add]

theorem getProjectionProjId_eq (src_dim tgt_dim : Nat) (mask : List Bool)
    (hs : src_dim < 16) (ht : tgt_dim < 16) :
    getProjectionProjId src_dim tgt_dim mask =
      maskSum 0 mask * 256 + src_dim * 16 + tgt_dim := by
  unfold getProjectionProjId
  rw [Nat.shiftLeft_eq, Nat.shiftLeft_eq, maskBits_eq]
  have h1 : src_dim * 2 ^ 4 < 2 ^ 8 := by norm_num; omega
  have o1 : 2 ^ 8 * (maskSum 0 mask) + src_dim * 2 ^ 4 =
      2 ^ 8 * (maskSum 0 mask) ||| src_dim * 2 ^ 4 :=
    Nat.mul_add_lt_is_or h1 _
  have h2 : tgt_dim < 2 ^ 4 := by norm_num; omega
  have o2 : 2 ^ 4 * (2 ^ 4 * maskSum 0 mask + src_dim) + tgt_dim =
      2 ^ 4 * (2 ^ 4 * maskSum 0 mask + src_dim) ||| tgt_dim :=
    Nat.mul_add_lt_is_or h2 _
  calc maskSum 0 mask * 2 ^ 8 ||| src_dim * 2 ^ 4 ||| tgt_dim
      = (2 ^ 8 * maskSum 0 mask ||| src_dim * 2 ^ 4) ||| tgt_dim := by
        rw [Nat.mul_comm]
    _ = (2 ^ 8 * maskSum 0 mask + src_dim * 2 ^ 4) ||| tgt_dim := by rw [← o1]
    _ = (2 ^ 4 * (2 ^ 4 * maskSum 0 mask + src_dim)) ||| tgt_dim := by
        rw [show 2 ^ 8 * maskSum 0 mask + src_dim * 2 ^ 4 =
          2 ^ 4 * (2 ^ 4 * maskSum 0 mask + src_dim) by ring]
    _ = 2 ^ 4 * (2 ^ 4 * maskSum 0 mask + src_dim) + tgt_dim := o2.symm
    _ = maskSum 0 mask * 256 + src_dim * 16 + tgt_dim := by ring

theorem factoradic_lt (s : List Nat) : factoradic s < s.length.factorial := by
  induction s with
  | nil => simp [factoradic]
  | cons v rest ih =>
    simp only [factoradic, List.length_cons, Nat.factorial_succ]
    have hc : rest.countP (fun x => decide (x < v)) ≤ rest.length :=
      List.countP_le_length _
    have h2 : rest.countP (fun x => decide (x < v)) * rest.length.factorial ≤
        rest.length * rest.length.factorial :=
      Nat.mul_le_mul_right _ hc
    have h3 : (rest.length + 1) * rest.length.factorial =
        rest.length * rest.length.factorial + rest.length.factorial := by ring
    omega

theorem countP_lt_of_mem (l : List Nat) (v w : Nat) (hvw : v < w) (hv : v ∈ l) :
    l.countP (fun x => decide (x < v)) < l.countP (fun x => decide (x < w)) := by
  induction l with
  | nil => cases hv
  | cons a rest ih =>
    rw [List.countP_cons, List.countP_cons]
    rcases List.mem_cons.mp hv with h | h
    · subst h
      have hle : rest.countP (fun x => decide (x < v)) ≤
          rest.countP (fun x => decide (x < w)) :=
        List.countP_mono_left (fun x _ hx => by
          simp only [decide_eq_true_eq] at hx ⊢; omega)
      simp only [decide_eq_true_eq, if_neg (lt_irrefl v), if_pos hvw]
      omega
    · have hr := ih h
      by_cases ha : a < v
      · simp only [decide_eq_true_eq, if_pos ha, if_pos (lt_trans ha hvw)]
        omega
      · simp only [decide_eq_true_eq, if_neg ha]
        split <;> omega

theorem mulAddCancel (c1 c2 f1 f2 N : Nat) (h1 : f1 < N) (h2 : f2 < N)
    (heq : c1 * N + f1 = c2 * N + f2) : c1 = c2 ∧ f1 = f2 := by
  rcases Nat.lt_trichotomy c1 c2 with h | h | h
  · exfalso
    have hm := Nat.mul_le_mul_right N (Nat.succ_le_of_lt h)
    rw [Nat.succ_mul] at hm
    omega
  · subst h
    omega
  · exfalso
    have hm := Nat.mul_le_mul_right N (Nat.succ_le_of_lt h)
    rw [Nat.succ_mul] at hm
    omega

theorem factoradic_inj : ∀ s t : List Nat, s.Perm t →
    factoradic s = factoradic t → s = t := by
  intro s
  induction s with
  | nil =>
    intro t hp _
    exact hp.nil_eq
  | cons v rest ih =>
    intro t hp hf
    cases t with
    | nil =>
      have := hp.length_eq
      simp at this
    | cons w trest =>
      have hlen : rest.length = trest.length := by
        have := hp.length_eq
        simpa using this
      simp only [factoradic] at hf
      rw [hlen] at hf
      have hfr := factoradic_lt rest
      have hft := factoradic_lt trest
      rw [hlen] at hfr
      obtain ⟨hcv, hmod⟩ := mulAddCancel _ _ _ _ _ hfr hft hf
      have hv1 : (v :: rest).countP (fun x => decide (x < v)) =
          rest.countP (fun x => decide (x < v)) := by
        rw [List.countP_cons]
        simp
      have hw1 : (v :: rest).countP (fun x => decide (x < w)) =
          trest.countP (fun x => decide (x < w)) := by
        rw [hp.countP_eq, List.countP_cons]
        simp
      have hvw : v = w := by
        by_contra hne
        rcases lt_or_gt_of_ne hne with h | h
        · have hlt := countP_lt_of_mem (v :: rest) v w h (List.mem_cons_self v rest)
          rw [hv1, hw1] at hlt
          omega
        · have hwmem : w ∈ v :: rest := hp.mem_iff.mpr (List.mem_cons_self w trest)
          have hlt := countP_lt_of_mem (v :: rest) w v h hwmem
          rw [hv1, hw1] at hlt
          omega
      subst hvw
      rw [ih trest hp.cons_inv hmod]

theorem getTransposeProjId_eq (base B : Nat) (s : List Nat)
    (hlen : s.length ≤ 15) (hB : 16 * s.length.factorial ≤ 2 ^ B) :
    getTransposeProjId (base <<< B) s =
      2 ^ B * base + 16 * factoradic s + s.length := by
  have hf := factoradic_lt s
  have h16 : (16 : Nat) ≤ 2 ^ B := by
    have := Nat.factorial_pos s.length
    omega
  have hB4 : 4 ≤ B := by
    have h2 := (Nat.pow_le_pow_iff_right (by norm_num : 1 < 2)).mp
      (le_trans (by norm_num : (2 : Nat) ^ 4 ≤ 16) h16)
    exact h2
  obtain ⟨C, rfl⟩ : ∃ C, B = 4 + C := ⟨B - 4, by omega⟩
  unfold getTransposeProjId
  rw [Nat.shiftLeft_eq, Nat.shiftLeft_eq]
  have h1 : factoradic s * 2 ^ 4 < 2 ^ (4 + C) := by
    have hle : (factoradic s + 1) * 16 ≤ 16 * s.length.factorial := by
      have : factoradic s + 1 ≤ s.length.factorial := hf
      omega
    omega
  have o1 : 2 ^ (4 + C) * base + factoradic s * 2 ^ 4 =
      2 ^ (4 + C) * base ||| factoradic s * 2 ^ 4 :=
    Nat.mul_add_lt_is_or h1 base
  have h2 : s.length < 2 ^ 4 := by norm_num; omega
  have o2 : 2 ^ 4 * (2 ^ C * base + factoradic s) + s.length =
      2 ^ 4 * (2 ^ C * base + factoradic s) ||| s.length :=
    Nat.mul_add_lt_is_or h2 _
  calc base * 2 ^ (4 + C) ||| factoradic s * 2 ^ 4 ||| s.length
      = (2 ^ (4 + C) * base ||| factoradic s * 2 ^ 4) ||| s.length := by
        rw [Nat.mul_comm]
    _ = (2 ^ (4 + C) * base + factoradic s * 2 ^ 4) ||| s.length := by rw [← o1]
    _ = (2 ^ 4 * (2 ^ C * base + factoradic s)) ||| s.length := by
        rw [show 2 ^ (4 + C) * base + factoradic s * 2 ^ 4 =
          2 ^ 4 * (2 ^ C * base + factoradic s) by rw [pow_add]; ring]
    _ = 2 ^ 4 * (2 ^ C * base + factoradic s) + s.length := o2.symm
    _ = 2 ^ (4 + C) * base + 16 * factoradic s + s.length := by
        rw [pow_add]; ring

/-- Claim C9: `get_projection` packs its functor identifier into fixed bit
fields — the mask bits ORed at their index positions equal the arithmetic
sum of the corresponding powers of two, and for source and target
dimensions below 16 the ORs place mask, source, and target into disjoint
fields of the identifier (`mask_bits * 256 + src_dim * 16 + tgt_dim`); and
`get_transpose` derives its identifier from the factorial-number-system
rank of the permutation shifted left by 4 and ORed with the dimension, so
that for any fixed dimension at most 15 (and a base functor constant
shifted clear of the rank field) distinct permutations of the same
sequence yield distinct transpose identifiers. -/
theorem projection_functor_ids :
    (∀ (src_dim tgt_dim : Nat) (mask : List Bool), src_dim < 16 → tgt_dim < 16 →
      getProjectionProjId src_dim tgt_dim mask =
        maskSum 0 mask * 256 + src_dim * 16 + tgt_dim) ∧
    (∀ (base B : Nat) (s t : List Nat), s.length ≤ 15 →
      16 * s.length.factorial ≤ 2 ^ B → s.Perm t →
      getTransposeProjId (base <<< B) s = getTransposeProjId (base <<< B) t →
      s = t) := by
  constructor
  · intro src_dim tgt_dim mask hs ht
    exact getProjectionProjId_eq src_dim tgt_dim mask hs ht
  · intro base B s t hlen hB hp hid
    have hlent : t.length = s.length := hp.length_eq.symm
    rw [getTransposeProjId_eq base B s hlen hB,
      getTransposeProjId_eq base B t (by rw [hlent]; exact hlen)
        (by rw [hlent]; exact hB)] at hid
    have hfeq : factoradic s = factoradic t := by
      have hl := hp.length_eq
      omega
    exact factoradic_inj s t hp hfeq

theorem projection_functor_ids_witness :
    (getProjectionProjId 2 1 [true, false, true] =
      maskSum 0 [true, false, true] * 256 + 2 * 16 + 1) ∧
    ([2, 0, 1] : List Nat) = [2, 0, 1] :=
  ⟨projection_functor_ids.1 2 1 [true, false, true] (by decide) (by decide),
   projection_functor_ids.2 20 8 [2, 0, 1] [2, 0, 1] (by decide) (by decide)
     (List.Perm.refl _) rfl⟩

end LegateCore
